import Mathlib

/-!
Verification development for the canonical JSON formatter
(`CanonicalFormatter` in src/lib.rs of serde_canonical_json).

The formatter is a push-driven state machine: a stack of object frames,
each frame holding an ordered list of member buffers (key text, value
text, and a one-way key_finished flag).  Every byte-producing event is
routed either into the current member of the topmost frame or, when no
frame is open, directly to the caller-supplied writer.  Closing an
object sorts its members by the raw bytes of their accumulated key text
and re-dispatches the assembled text through the same routing rule.

Rust `String`s are modelled as `List Char`; the writer's byte stream is
modelled as `List Nat` (byte values), obtained from text via UTF-8
encoding, so that the byte-level behaviour (raw-byte writes in the
`AsciiControl` arm of `write_char_escape`) is captured exactly.
-/

/-- UTF-8 encoding of a single character, as a list of byte values.
This models how a Rust `String` (pushed `char` by `char`) is laid out in
memory and ultimately written by `writer.write_all(s.as_bytes())`. -/
def utf8Bytes (c : Char) : List Nat :=
  let n := c.toNat
  if n < 0x80 then [n]
  else if n < 0x800 then [0xC0 + n / 0x40, 0x80 + n % 0x40]
  else if n < 0x10000 then [0xE0 + n / 0x1000, 0x80 + n / 0x40 % 0x40, 0x80 + n % 0x40]
  else [0xF0 + n / 0x40000, 0x80 + n / 0x1000 % 0x40, 0x80 + n / 0x40 % 0x40, 0x80 + n % 0x40]

/-- The UTF-8 byte sequence of a text, i.e. Rust's `str::as_bytes`. -/
def strBytes (s : List Char) : List Nat :=
  (s.map utf8Bytes).flatten

/-- Byte-wise lexicographic order on byte sequences; this is Rust's
`Ord` on `String` (which compares the underlying UTF-8 bytes). -/
def bytesLe : List Nat → List Nat → Bool
  | [], _ => true
  | _ :: _, [] => false
  | a :: as, b :: bs => if a < b then true else if b < a then false else bytesLe as bs

/-- Insert into a sorted list, before the first element not below the
new one.  Together with `isort` this is a stable sort. -/
def ordInsert {A : Type} (le : A → A → Bool) (a : A) : List A → List A
  | [] => [a]
  | b :: rest => if le a b then a :: b :: rest else b :: ordInsert le a rest

/-- Stable insertion sort.  Rust's `sort_by` is a stable sort; its
observable result (sorted, and equal elements keep their input order)
is exactly the result of a stable insertion sort, which is how
`ObjectStackFrame::string`'s `self.members.sort_by(..)` is modelled. -/
def isort {A : Type} (le : A → A → Bool) : List A → List A
  | [] => []
  | a :: rest => ordInsert le a (isort le rest)

/-- One key/value pair under construction inside a frame
(`ObjectMemberBuffer` in the source). -/
structure ObjectMemberBuffer where
  key : List Char
  value : List Char
  key_finished : Bool
  deriving DecidableEq, Repr

/-- A fresh member buffer: empty key, empty value, key unfinished. -/
def ObjectMemberBuffer.new : ObjectMemberBuffer :=
  ⟨[], [], false⟩

/-- `ObjectMemberBuffer::push`: one character goes to the value if the
key is finished, to the key otherwise. -/
def ObjectMemberBuffer.push (m : ObjectMemberBuffer) (ch : Char) : ObjectMemberBuffer :=
  if m.key_finished then { m with value := m.value ++ [ch] }
  else { m with key := m.key ++ [ch] }

/-- `ObjectMemberBuffer::push_str`: text goes to the value if the key
is finished, to the key otherwise. -/
def ObjectMemberBuffer.push_str (m : ObjectMemberBuffer) (s : List Char) : ObjectMemberBuffer :=
  if m.key_finished then { m with value := m.value ++ s }
  else { m with key := m.key ++ s }

/-- `ObjectMemberBuffer::finish_key`: flip the one-way flag. -/
def ObjectMemberBuffer.finish_key (m : ObjectMemberBuffer) : ObjectMemberBuffer :=
  { m with key_finished := true }

/-- `ObjectMemberBuffer::string`: render as `key:value`, preceded by a
comma unless this is the first member. -/
def ObjectMemberBuffer.string (m : ObjectMemberBuffer) (first : Bool) : List Char :=
  (if first then [] else [',']) ++ m.key ++ ':' :: m.value

/-- The comparison used by `ObjectStackFrame::string`'s
`sort_by(|a, b| a.key.cmp(&b.key))`: byte order of the accumulated key
text (quotes and escapes included, since they were pushed into `key`). -/
def memberLe (a b : ObjectMemberBuffer) : Bool :=
  bytesLe (strBytes a.key) (strBytes b.key)

/-- One currently open object (`ObjectStackFrame` in the source): its
members in creation (event) order. -/
structure ObjectStackFrame where
  members : List ObjectMemberBuffer
  deriving DecidableEq, Repr

/-- A fresh frame with no members. -/
def ObjectStackFrame.new : ObjectStackFrame :=
  ⟨[]⟩

/-- `ObjectStackFrame::push_member`: append a fresh member buffer. -/
def ObjectStackFrame.push_member (f : ObjectStackFrame) : ObjectStackFrame :=
  ⟨f.members ++ [ObjectMemberBuffer.new]⟩

/-- Apply a function to the last element of a list, or fail on the
empty list.  This models `members.last_mut()`: mutation of the current
(most recently created) member. -/
def modifyLast {A : Type} (g : A → A) : List A → Option (List A)
  | [] => none
  | [a] => some [g a]
  | a :: b :: rest =>
    match modifyLast g (b :: rest) with
    | none => none
    | some l => some (a :: l)

/-- `ObjectStackFrame::current_member` followed by a mutation: update
the most recently created member, or fail when the frame is empty. -/
def ObjectStackFrame.withCurrent (f : ObjectStackFrame)
    (g : ObjectMemberBuffer → ObjectMemberBuffer) : Option ObjectStackFrame :=
  match modifyLast g f.members with
  | none => none
  | some ms => some ⟨ms⟩

/-- Iterate the members of a frame, rendering each with its
`index == 0` flag (the body of the loop in `ObjectStackFrame::string`). -/
def renderFrameMembers : Bool → List ObjectMemberBuffer → List Char
  | _, [] => []
  | first, m :: rest => m.string first ++ renderFrameMembers false rest

/-- `ObjectStackFrame::string`: sort the members by the byte order of
their accumulated keys (stable, see `isort`), then concatenate a brace,
the rendered members, and a closing brace. -/
def ObjectStackFrame.string (f : ObjectStackFrame) : List Char :=
  Char.ofNat 0x7B :: renderFrameMembers true (isort memberLe f.members) ++ [Char.ofNat 0x7D]

/-- The formatter itself: the stack of open object frames, topmost
first (the source pushes and pops with `push_front` / `pop_front`). -/
structure CanonicalFormatter where
  object_stack : List ObjectStackFrame
  deriving DecidableEq, Repr

/-- The three error kinds of the formatter (all are `io::Error`s with
kind `InvalidData` in the source, distinguished by their message). -/
inductive FmtError where
  | protocolViolation
  | invalidNumberLiteral
  | unsupportedFloat
  deriving DecidableEq, Repr

/-- The observable state of one serialization session: the formatter
and the bytes written so far to the caller-supplied writer. -/
structure FmtState where
  fmt : CanonicalFormatter
  output : List Nat
  deriving DecidableEq, Repr

/-- The initial state: empty stack, nothing written. -/
def FmtState.init : FmtState :=
  ⟨⟨[]⟩, []⟩

/-- The routing rule repeated verbatim in every byte-producing method
of the source: if a frame is open, append the text to its current
member (error when the frame has no member); otherwise write the text's
bytes to the writer. -/
def dispatch (st : FmtState) (s : List Char) : Except FmtError FmtState :=
  match st.fmt.object_stack with
  | [] => Except.ok ⟨⟨[]⟩, st.output ++ strBytes s⟩
  | frame :: rest =>
    match frame.withCurrent (fun m => m.push_str s) with
    | none => Except.error FmtError.protocolViolation
    | some frame' => Except.ok ⟨⟨frame' :: rest⟩, st.output⟩

/-- `CanonicalFormatter::pop_object`: pop the topmost frame (error when
the stack is empty), render it, and route the rendered text using the
popped stack — to the parent's current member if a parent frame
remains (error if it has no member), else straight to the writer. -/
def pop_object (st : FmtState) : Except FmtError FmtState :=
  match st.fmt.object_stack with
  | [] => Except.error FmtError.protocolViolation
  | frame :: rest => dispatch ⟨⟨rest⟩, st.output⟩ frame.string

/-- `write_f32`: floating point is forbidden unconditionally.  The
value (modelled by its 32-bit pattern) is never inspected. -/
def write_f32 (_st : FmtState) (_value : Nat) : Except FmtError FmtState :=
  Except.error FmtError.unsupportedFloat

/-- `write_f64`: floating point is forbidden unconditionally.  The
value (modelled by its 64-bit pattern) is never inspected. -/
def write_f64 (_st : FmtState) (_value : Nat) : Except FmtError FmtState :=
  Except.error FmtError.unsupportedFloat

/-- ASCII decimal digit test, `0`–`9`.  This is the digit class of the
spec's number grammar (§4.3) and of the JSON number scanner modelled
below; it is NOT the regex class `\d` of `write_number_str`'s pattern,
which is Unicode-aware (see `isNd`). -/
def isDigitCh (c : Char) : Bool :=
  0x30 ≤ c.toNat && c.toNat ≤ 0x39

/-- Nonzero decimal digit test, i.e. the regex class `[1-9]` — a
literal character class, ASCII in every regex mode. -/
def isDigit19 (c : Char) : Bool :=
  0x31 ≤ c.toNat && c.toNat ≤ 0x39

/-- The code-point ranges of the Unicode general category Nd (decimal
digit number).  The regex engine behind `write_number_str` is the
external regex crate, a dependency whose code is not in this
repository's sources; with that crate's default Unicode mode — which
`Regex::new` uses, and the source does not disable — the class `\d`
denotes exactly this category, not ASCII `0`–`9`.  The repository pins
no crate version, so the exact category contents follow whichever
Unicode version the built crate bundles; this table is Unicode 14.0.0
(62 ranges, 660 code points), and later Unicode versions only add
digit ranges of further scripts (for example Kawi 0x11F50–0x11F59 and
Nag Mundari 0x1E4F0–0x1E4F9 in Unicode 15.0).  No statement below
depends on any version-sensitive range: every theorem touching this
table uses only the ASCII range 0x30–0x39 and the Arabic-Indic range
0x660–0x669, both in the category since Unicode 1.1. -/
def ndRanges : List (Nat × Nat) :=
  [(0x30, 0x39), (0x660, 0x669), (0x6F0, 0x6F9), (0x7C0, 0x7C9),
   (0x966, 0x96F), (0x9E6, 0x9EF), (0xA66, 0xA6F), (0xAE6, 0xAEF),
   (0xB66, 0xB6F), (0xBE6, 0xBEF), (0xC66, 0xC6F), (0xCE6, 0xCEF),
   (0xD66, 0xD6F), (0xDE6, 0xDEF), (0xE50, 0xE59), (0xED0, 0xED9),
   (0xF20, 0xF29), (0x1040, 0x1049), (0x1090, 0x1099), (0x17E0, 0x17E9),
   (0x1810, 0x1819), (0x1946, 0x194F), (0x19D0, 0x19D9), (0x1A80, 0x1A89),
   (0x1A90, 0x1A99), (0x1B50, 0x1B59), (0x1BB0, 0x1BB9), (0x1C40, 0x1C49),
   (0x1C50, 0x1C59), (0xA620, 0xA629), (0xA8D0, 0xA8D9), (0xA900, 0xA909),
   (0xA9D0, 0xA9D9), (0xA9F0, 0xA9F9), (0xAA50, 0xAA59), (0xABF0, 0xABF9),
   (0xFF10, 0xFF19), (0x104A0, 0x104A9), (0x10D30, 0x10D39),
   (0x11066, 0x1106F), (0x110F0, 0x110F9), (0x11136, 0x1113F),
   (0x111D0, 0x111D9), (0x112F0, 0x112F9), (0x11450, 0x11459),
   (0x114D0, 0x114D9), (0x11650, 0x11659), (0x116C0, 0x116C9),
   (0x11730, 0x11739), (0x118E0, 0x118E9), (0x11950, 0x11959),
   (0x11C50, 0x11C59), (0x11D50, 0x11D59), (0x11DA0, 0x11DA9),
   (0x16A60, 0x16A69), (0x16AC0, 0x16AC9), (0x16B50, 0x16B59),
   (0x1D7CE, 0x1D7FF), (0x1E140, 0x1E149), (0x1E2F0, 0x1E2F9),
   (0x1E950, 0x1E959), (0x1FBF0, 0x1FBF9)]

/-- The regex class `\d` under the regex crate's default Unicode mode:
membership in the Unicode decimal-digit category `Nd` (see
`ndRanges`). -/
def isNd (c : Char) : Bool :=
  ndRanges.any (fun r => r.1 ≤ c.toNat && c.toNat ≤ r.2)

/-- Matcher for the regex fragment `[1-9]\d+` against a whole text:
a literal ASCII `1`–`9`, then at least one Unicode decimal digit. -/
def numberReTail : List Char → Bool
  | c :: d :: rest => isDigit19 c && isNd d && rest.all isNd
  | _ => false

/-- The number grammar regex of `write_number_str`,
`^\d$|^-[1-9]$|^-?[1-9]\d+$`, as a whole-text matcher, with `\d` the
Unicode class `Nd` per the regex crate's default (see `ndRanges`).  In
the third alternative the optional minus must be taken exactly when the
text starts with a minus, since `[1-9]` cannot match a minus sign. -/
def numberReMatch (s : List Char) : Bool :=
  (match s with
   | [c] => isNd c
   | _ => false)
  ||
  (match s with
   | [a, c] => a = '-' && isDigit19 c
   | _ => false)
  ||
  (match s with
   | [] => false
   | c :: rest => if c = '-' then numberReTail rest else numberReTail (c :: rest))

/-- `write_number_str`: validate the text against the number regex,
then route it like every other write; reject it otherwise.  Note the
regex accepts more than the spec grammar of §4.3: any Unicode decimal
digit satisfies `\d`, so for example the single ARABIC-INDIC DIGIT
FIVE (U+0665) is accepted and emitted verbatim. -/
def write_number_str (st : FmtState) (value : List Char) : Except FmtError FmtState :=
  if numberReMatch value then dispatch st value
  else Except.error FmtError.invalidNumberLiteral

/-- The eight named escape events of serde_json's `CharEscape`, plus
the raw-control-byte event (the byte modelled as a `Nat` below 256). -/
inductive CharEscape where
  | Quote
  | ReverseSolidus
  | Solidus
  | Backspace
  | FormFeed
  | LineFeed
  | CarriageReturn
  | Tab
  | AsciiControl (byte : Nat)
  deriving DecidableEq, Repr

/-- The text chosen by the `match` in `write_char_escape` for the eight
named escapes: only quote and backslash keep a backslash escape, the
solidus and the control characters become their raw selves.  (The
`AsciiControl` arm returns early in the source and is handled
separately in `write_char_escape`; its entry here is unused there.) -/
def escapeChars : CharEscape → List Char
  | CharEscape.Quote => ['\\', '"']
  | CharEscape.ReverseSolidus => ['\\', '\\']
  | CharEscape.Solidus => ['/']
  | CharEscape.Backspace => [Char.ofNat 0x08]
  | CharEscape.FormFeed => [Char.ofNat 0x0C]
  | CharEscape.LineFeed => [Char.ofNat 0x0A]
  | CharEscape.CarriageReturn => [Char.ofNat 0x0D]
  | CharEscape.Tab => [Char.ofNat 0x09]
  | CharEscape.AsciiControl byte => [Char.ofNat byte]

/-- `write_char_escape`: the `AsciiControl` arm returns early, pushing
the byte as one `char` into the current member, or writing the single
raw byte when no frame is open; every other escape dispatches its text
from the table. -/
def write_char_escape (st : FmtState) (char_escape : CharEscape) : Except FmtError FmtState :=
  match char_escape with
  | CharEscape.AsciiControl byte =>
    match st.fmt.object_stack with
    | [] => Except.ok ⟨⟨[]⟩, st.output ++ [byte]⟩
    | frame :: rest =>
      match frame.withCurrent (fun m => m.push (Char.ofNat byte)) with
      | none => Except.error FmtError.protocolViolation
      | some frame' => Except.ok ⟨⟨frame' :: rest⟩, st.output⟩
  | esc => dispatch st (escapeChars esc)

/-- `begin_object`: push a fresh frame; never fails. -/
def begin_object (st : FmtState) : Except FmtError FmtState :=
  Except.ok ⟨⟨ObjectStackFrame.new :: st.fmt.object_stack⟩, st.output⟩

/-- `begin_object_key`: append a fresh member to the topmost frame;
error when no frame is open.  The `first` flag is ignored. -/
def begin_object_key (st : FmtState) (_first : Bool) : Except FmtError FmtState :=
  match st.fmt.object_stack with
  | [] => Except.error FmtError.protocolViolation
  | frame :: rest => Except.ok ⟨⟨frame.push_member :: rest⟩, st.output⟩

/-- `end_object_key`: flip the current member's flag; error when no
frame is open or the frame has no member. -/
def end_object_key (st : FmtState) : Except FmtError FmtState :=
  match st.fmt.object_stack with
  | [] => Except.error FmtError.protocolViolation
  | frame :: rest =>
    match frame.withCurrent ObjectMemberBuffer.finish_key with
    | none => Except.error FmtError.protocolViolation
    | some frame' => Except.ok ⟨⟨frame' :: rest⟩, st.output⟩

/-- `begin_object_value`: a no-op. -/
def begin_object_value (st : FmtState) : Except FmtError FmtState :=
  Except.ok st

/-- `end_object_value`: a no-op. -/
def end_object_value (st : FmtState) : Except FmtError FmtState :=
  Except.ok st

/-- `end_object` delegates to `pop_object`. -/
def end_object (st : FmtState) : Except FmtError FmtState :=
  pop_object st

/-- `write_null`. -/
def write_null (st : FmtState) : Except FmtError FmtState :=
  dispatch st "null".data

/-- `write_bool`. -/
def write_bool (st : FmtState) (value : Bool) : Except FmtError FmtState :=
  dispatch st (if value then "true".data else "false".data)

/-- Canonical decimal digits of a natural number, fuel-recursive so it
evaluates by kernel reduction; `natChars` supplies sufficient fuel. -/
def natCharsAux : Nat → Nat → List Char
  | 0, _ => []
  | fuel + 1, n =>
    if n < 10 then [Char.ofNat (0x30 + n)]
    else natCharsAux fuel (n / 10) ++ [Char.ofNat (0x30 + n % 10)]

/-- Canonical decimal digits of a natural number. -/
def natChars (n : Nat) : List Char :=
  natCharsAux (n + 1) n

/-- Canonical decimal text of an integer: itoa's formatting (plain
digits, a leading minus for negatives, no leading zeros). -/
def intChars (v : Int) : List Char :=
  if v < 0 then '-' :: natChars v.natAbs else natChars v.toNat

/-- `write_i64` (the single shared code path of all the per-width
integer methods): format with itoa — modelled by the canonical decimal
text — and route like every other write. -/
def write_i64 (st : FmtState) (value : Int) : Except FmtError FmtState :=
  dispatch st (intChars value)

/-- `begin_array`. -/
def begin_array (st : FmtState) : Except FmtError FmtState :=
  dispatch st ['[']

/-- `end_array`. -/
def end_array (st : FmtState) : Except FmtError FmtState :=
  dispatch st [']']

/-- `begin_array_value`: nothing for the first element, a comma
separator before every later one. -/
def begin_array_value (st : FmtState) (first : Bool) : Except FmtError FmtState :=
  if first then Except.ok st else dispatch st [',']

/-- `end_array_value`: a no-op. -/
def end_array_value (st : FmtState) : Except FmtError FmtState :=
  Except.ok st

/-- `begin_string`: an opening quote. -/
def begin_string (st : FmtState) : Except FmtError FmtState :=
  dispatch st ['"']

/-- `end_string`: a closing quote. -/
def end_string (st : FmtState) : Except FmtError FmtState :=
  dispatch st ['"']

/-- `write_string_fragment`: pass the fragment through unchanged. -/
def write_string_fragment (st : FmtState) (fragment : List Char) : Except FmtError FmtState :=
  dispatch st fragment

/-- `write_raw_fragment`: pass the fragment through unchanged. -/
def write_raw_fragment (st : FmtState) (fragment : List Char) : Except FmtError FmtState :=
  dispatch st fragment

/-- The event protocol consumed from the upstream traversal engine
(the `Formatter` trait methods the source implements). -/
inductive Event where
  | beginObject
  | endObject
  | beginObjectKey (first : Bool)
  | endObjectKey
  | beginObjectValue
  | endObjectValue
  | beginArray
  | endArray
  | beginArrayValue (first : Bool)
  | endArrayValue
  | beginString
  | endString
  | stringFragment (s : List Char)
  | charEscape (e : CharEscape)
  | writeNull
  | writeBool (b : Bool)
  | writeI64 (v : Int)
  | numberStr (s : List Char)
  | rawFragment (s : List Char)
  deriving DecidableEq, Repr

/-- Deliver one event to the formatter. -/
def step (st : FmtState) : Event → Except FmtError FmtState
  | Event.beginObject => begin_object st
  | Event.endObject => end_object st
  | Event.beginObjectKey first => begin_object_key st first
  | Event.endObjectKey => end_object_key st
  | Event.beginObjectValue => begin_object_value st
  | Event.endObjectValue => end_object_value st
  | Event.beginArray => begin_array st
  | Event.endArray => end_array st
  | Event.beginArrayValue first => begin_array_value st first
  | Event.endArrayValue => end_array_value st
  | Event.beginString => begin_string st
  | Event.endString => end_string st
  | Event.stringFragment s => write_string_fragment st s
  | Event.charEscape e => write_char_escape st e
  | Event.writeNull => write_null st
  | Event.writeBool b => write_bool st b
  | Event.writeI64 v => write_i64 st v
  | Event.numberStr s => write_number_str st s
  | Event.rawFragment s => write_raw_fragment st s

/-- Deliver a sequence of events; the first error aborts the session. -/
def run (st : FmtState) : List Event → Except FmtError FmtState
  | [] => Except.ok st
  | e :: es =>
    match step st e with
    | Except.error err => Except.error err
    | Except.ok st' => run st' es

/-!
The JSON value model, the traversal engine that turns a value into the
event stream, and a standard JSON parser.  The traversal engine and the
parser are external collaborators of the formatter (the spec's event
source and decoder), so they are modelled from the spec, not from
src/.  Values, arrays and member lists form one mutual inductive family
so that every function over them is structurally recursive and reduces
by kernel evaluation.
-/

mutual
inductive JsonValue where
  | null : JsonValue
  | bool (b : Bool) : JsonValue
  | int (n : Int) : JsonValue
  | str (s : List Char) : JsonValue
  | arr (elems : JsonArr) : JsonValue
  | obj (members : JsonMembers) : JsonValue
  deriving DecidableEq, Repr
inductive JsonArr where
  | nil : JsonArr
  | cons (head : JsonValue) (tail : JsonArr) : JsonArr
  deriving DecidableEq, Repr
inductive JsonMembers where
  | nil : JsonMembers
  | cons (key : List Char) (val : JsonValue) (tail : JsonMembers) : JsonMembers
  deriving DecidableEq, Repr
end

/-- Member list as a list of (key, value) pairs. -/
def JsonMembers.toList : JsonMembers → List (List Char × JsonValue)
  | JsonMembers.nil => []
  | JsonMembers.cons k v ms => (k, v) :: ms.toList

/-- Member list from a list of (key, value) pairs. -/
def JsonMembers.ofList : List (List Char × JsonValue) → JsonMembers
  | [] => JsonMembers.nil
  | (k, v) :: rest => JsonMembers.cons k v (JsonMembers.ofList rest)

/-- Modelled from the spec: the escape event the external traversal
engine (serde_json's string serializer, which is not part of src/)
emits for one character of string content — quote, backslash and the
named control characters get their named escape events, any other
control character a raw-control-byte event, and everything else passes
through as a fragment (spec section 6, consumed protocol). -/
def charEvent (c : Char) : Event :=
  if c = '"' then Event.charEscape CharEscape.Quote
  else if c = '\\' then Event.charEscape CharEscape.ReverseSolidus
  else if c.toNat = 0x08 then Event.charEscape CharEscape.Backspace
  else if c.toNat = 0x0C then Event.charEscape CharEscape.FormFeed
  else if c.toNat = 0x0A then Event.charEscape CharEscape.LineFeed
  else if c.toNat = 0x0D then Event.charEscape CharEscape.CarriageReturn
  else if c.toNat = 0x09 then Event.charEscape CharEscape.Tab
  else if c.toNat < 0x20 then Event.charEscape (CharEscape.AsciiControl c.toNat)
  else Event.stringFragment [c]

/-- Modelled from the spec: the event group for one string — opening
quote, one event per character, closing quote. -/
def stringEvents (s : List Char) : List Event :=
  Event.beginString :: s.map charEvent ++ [Event.endString]

/-- The net effect of the minimal escape table on one character of
string content: quote and backslash become two-character escapes,
everything else (control characters included) stays itself. -/
def escapeOne (c : Char) : List Char :=
  if c = '"' then ['\\', '"']
  else if c = '\\' then ['\\', '\\']
  else [c]

/-- Canonically rendered string content. -/
def renderStrContent (s : List Char) : List Char :=
  (s.map escapeOne).flatten

/-- Canonically rendered string, quotes included.  Object keys are
accumulated in exactly this form, so this is also the key text the
member sort compares. -/
def renderStr (s : List Char) : List Char :=
  '"' :: renderStrContent s ++ ['"']

mutual
/-- Canonical rendering of a value: the text the formatter produces
for it.  Objects render through `ObjectStackFrame.string`, the
sort-and-assemble routine of the source. -/
def render : JsonValue → List Char
  | JsonValue.null => "null".data
  | JsonValue.bool b => if b then "true".data else "false".data
  | JsonValue.int n => intChars n
  | JsonValue.str s => renderStr s
  | JsonValue.arr vs => '[' :: renderArr true vs ++ [']']
  | JsonValue.obj ms => ObjectStackFrame.string ⟨renderMembers ms⟩
/-- Canonical rendering of array elements, comma separated. -/
def renderArr : Bool → JsonArr → List Char
  | _, JsonArr.nil => []
  | first, JsonArr.cons v vs =>
    (if first then [] else [',']) ++ render v ++ renderArr false vs
/-- The member buffers an object's event groups leave behind: the key
accumulated in rendered (quoted, escaped) form, the value in rendered
form, the key finished. -/
def renderMembers : JsonMembers → List ObjectMemberBuffer
  | JsonMembers.nil => []
  | JsonMembers.cons k v ms => ⟨renderStr k, render v, true⟩ :: renderMembers ms
end

mutual
/-- Modelled from the spec: the depth-first event stream the external
traversal engine (serde's Serializer driving the Formatter, not part
of src/) emits for a value (spec sections 2 and 6). -/
def eventsOf : JsonValue → List Event
  | JsonValue.null => [Event.writeNull]
  | JsonValue.bool b => [Event.writeBool b]
  | JsonValue.int n => [Event.writeI64 n]
  | JsonValue.str s => stringEvents s
  | JsonValue.arr vs => Event.beginArray :: arrEvents true vs ++ [Event.endArray]
  | JsonValue.obj ms => Event.beginObject :: memberEvents true ms ++ [Event.endObject]
/-- Modelled from the spec: events for the elements of an array. -/
def arrEvents : Bool → JsonArr → List Event
  | _, JsonArr.nil => []
  | first, JsonArr.cons v vs =>
    Event.beginArrayValue first :: eventsOf v ++ Event.endArrayValue :: arrEvents false vs
/-- Modelled from the spec: events for the members of an object, in
delivery order — key group, value group, next member. -/
def memberEvents : Bool → JsonMembers → List Event
  | _, JsonMembers.nil => []
  | first, JsonMembers.cons k v ms =>
    Event.beginObjectKey first :: stringEvents k ++
      Event.endObjectKey :: Event.beginObjectValue :: eventsOf v ++
        Event.endObjectValue :: memberEvents false ms
end

/-- Order on (key, value) pairs by the bytes of the rendered (quoted,
escaped) key — the order in which the formatter emits members. -/
def pairLe (a b : List Char × JsonValue) : Bool :=
  bytesLe (strBytes (renderStr a.1)) (strBytes (renderStr b.1))

/-- Sort a member list by rendered key bytes (stable). -/
def sortMembers (ms : JsonMembers) : JsonMembers :=
  JsonMembers.ofList (isort pairLe ms.toList)

mutual
/-- The canonical form of a value: every object's member list sorted
by rendered key bytes, recursively.  Decoding a canonically encoded
value yields exactly this form. -/
def canon : JsonValue → JsonValue
  | JsonValue.arr vs => JsonValue.arr (canonArr vs)
  | JsonValue.obj ms => JsonValue.obj (sortMembers (canonMembers ms))
  | v => v
/-- Canonical form of array elements. -/
def canonArr : JsonArr → JsonArr
  | JsonArr.nil => JsonArr.nil
  | JsonArr.cons v vs => JsonArr.cons (canon v) (canonArr vs)
/-- Canonical form of each member's value, order untouched. -/
def canonMembers : JsonMembers → JsonMembers
  | JsonMembers.nil => JsonMembers.nil
  | JsonMembers.cons k v ms => JsonMembers.cons k (canon v) (canonMembers ms)
end

mutual
/-- Node count of a value, used as parser fuel. -/
def jsize : JsonValue → Nat
  | JsonValue.arr vs => 1 + jsizeArr vs
  | JsonValue.obj ms => 1 + jsizeMembers ms
  | _ => 1
/-- Node count of array elements. -/
def jsizeArr : JsonArr → Nat
  | JsonArr.nil => 0
  | JsonArr.cons v vs => 1 + jsize v + jsizeArr vs
/-- Node count of members. -/
def jsizeMembers : JsonMembers → Nat
  | JsonMembers.nil => 0
  | JsonMembers.cons _ v ms => 1 + jsize v + jsizeMembers ms
end

mutual
/-- Logical equality of JSON values: equal up to reordering of object
members, recursively (arrays keep their order). -/
inductive PermEq : JsonValue → JsonValue → Prop where
  | null : PermEq JsonValue.null JsonValue.null
  | bool (b : Bool) : PermEq (JsonValue.bool b) (JsonValue.bool b)
  | int (n : Int) : PermEq (JsonValue.int n) (JsonValue.int n)
  | str (s : List Char) : PermEq (JsonValue.str s) (JsonValue.str s)
  | arr {xs ys : JsonArr} : PermEqArr xs ys → PermEq (JsonValue.arr xs) (JsonValue.arr ys)
  | obj {ms ns : JsonMembers} : PermEqMembers ms ns → PermEq (JsonValue.obj ms) (JsonValue.obj ns)
/-- Logical equality of arrays: element-wise. -/
inductive PermEqArr : JsonArr → JsonArr → Prop where
  | nil : PermEqArr JsonArr.nil JsonArr.nil
  | cons {v w : JsonValue} {xs ys : JsonArr} :
      PermEq v w → PermEqArr xs ys → PermEqArr (JsonArr.cons v xs) (JsonArr.cons w ys)
/-- Logical equality of member lists: a permutation with logically
equal values under equal keys (the constructors mirror `List.Perm`). -/
inductive PermEqMembers : JsonMembers → JsonMembers → Prop where
  | nil : PermEqMembers JsonMembers.nil JsonMembers.nil
  | cons {k : List Char} {v w : JsonValue} {ms ns : JsonMembers} :
      PermEq v w → PermEqMembers ms ns →
        PermEqMembers (JsonMembers.cons k v ms) (JsonMembers.cons k w ns)
  | swap {k1 k2 : List Char} {v1 v2 : JsonValue} {ms : JsonMembers} :
      PermEqMembers (JsonMembers.cons k1 v1 (JsonMembers.cons k2 v2 ms))
        (JsonMembers.cons k2 v2 (JsonMembers.cons k1 v1 ms))
  | trans {ms ns os : JsonMembers} :
      PermEqMembers ms ns → PermEqMembers ns os → PermEqMembers ms os
end

/-- Modelled from the spec: string-content parsing of a standard JSON
parser (the decoder is out of scope of src/).  It resolves the common
single-character escapes and — like consumers of this canonical dialect
must — accepts raw control bytes literally.  `decodeEscapeCh` resolves
the character after a backslash. -/
def decodeEscapeCh (c : Char) : Option Char :=
  if c = '"' then some '"'
  else if c = '\\' then some '\\'
  else if c = '/' then some '/'
  else if c = 'b' then some (Char.ofNat 0x08)
  else if c = 'f' then some (Char.ofNat 0x0C)
  else if c = 'n' then some (Char.ofNat 0x0A)
  else if c = 'r' then some (Char.ofNat 0x0D)
  else if c = 't' then some (Char.ofNat 0x09)
  else none

mutual
def parseStringContent : List Char → Option (List Char × List Char)
  | [] => none
  | c :: rest =>
    if c = '"' then some ([], rest)
    else if c = '\\' then parseStringEsc rest
    else
      match parseStringContent rest with
      | none => none
      | some (s, r) => some (c :: s, r)
def parseStringEsc : List Char → Option (List Char × List Char)
  | [] => none
  | d :: rest =>
    match decodeEscapeCh d with
    | none => none
    | some e =>
      match parseStringContent rest with
      | none => none
      | some (s, r) => some (e :: s, r)
end

/-- Modelled from the spec: maximal-munch digit reading of a standard
JSON parser's number scanner. -/
def parseDigits (acc : Nat) : List Char → Nat × List Char
  | [] => (acc, [])
  | c :: rest =>
    if isDigitCh c then parseDigits (acc * 10 + (c.toNat - 0x30)) rest
    else (acc, c :: rest)

mutual
/-- Modelled from the spec: a standard recursive-descent JSON parser
for the values this dialect can encode (no floating point), fuelled so
it is structurally recursive.  Dispatch is on the first character:
brace, bracket, quote, literal initial, minus or digit. -/
def parseValue : Nat → List Char → Option (JsonValue × List Char)
  | 0, _ => none
  | fuel + 1, input =>
    match input with
    | [] => none
    | c :: rest =>
      if c = '"' then
        match parseStringContent rest with
        | none => none
        | some (s, r) => some (JsonValue.str s, r)
      else if c = Char.ofNat 0x7B then
        match rest with
        | [] => none
        | d :: rest' =>
          if d = Char.ofNat 0x7D then some (JsonValue.obj JsonMembers.nil, rest')
          else
            match parseMembers fuel rest with
            | none => none
            | some (ms, r) => some (JsonValue.obj ms, r)
      else if c = '[' then
        match rest with
        | [] => none
        | d :: rest' =>
          if d = ']' then some (JsonValue.arr JsonArr.nil, rest')
          else
            match parseElems fuel rest with
            | none => none
            | some (vs, r) => some (JsonValue.arr vs, r)
      else if c = 't' then
        match rest with
        | 'r' :: 'u' :: 'e' :: r => some (JsonValue.bool true, r)
        | _ => none
      else if c = 'f' then
        match rest with
        | 'a' :: 'l' :: 's' :: 'e' :: r => some (JsonValue.bool false, r)
        | _ => none
      else if c = 'n' then
        match rest with
        | 'u' :: 'l' :: 'l' :: r => some (JsonValue.null, r)
        | _ => none
      else if c = '-' then
        match rest with
        | [] => none
        | d :: _ =>
          if isDigitCh d then
            match parseDigits 0 rest with
            | (n, r) => some (JsonValue.int (-(n : Int)), r)
          else none
      else if isDigitCh c then
        match parseDigits 0 (c :: rest) with
        | (n, r) => some (JsonValue.int (n : Int), r)
      else none
/-- Modelled from the spec: the member loop of a standard JSON parser,
entered after the opening brace of a non-empty object. -/
def parseMembers : Nat → List Char → Option (JsonMembers × List Char)
  | 0, _ => none
  | fuel + 1, input =>
    match input with
    | '"' :: rest =>
      match parseStringContent rest with
      | none => none
      | some (k, r1) =>
        match r1 with
        | ':' :: r2 =>
          match parseValue fuel r2 with
          | none => none
          | some (v, r3) =>
            match r3 with
            | ',' :: r4 =>
              match parseMembers fuel r4 with
              | none => none
              | some (ms, r5) => some (JsonMembers.cons k v ms, r5)
            | d :: r4 =>
              if d = Char.ofNat 0x7D then some (JsonMembers.cons k v JsonMembers.nil, r4)
              else none
            | [] => none
        | _ => none
    | _ => none
/-- Modelled from the spec: the element loop of a standard JSON
parser, entered after the opening bracket of a non-empty array. -/
def parseElems : Nat → List Char → Option (JsonArr × List Char)
  | 0, _ => none
  | fuel + 1, input =>
    match parseValue fuel input with
    | none => none
    | some (v, r) =>
      match r with
      | ',' :: r2 =>
        match parseElems fuel r2 with
        | none => none
        | some (vs, r3) => some (JsonArr.cons v vs, r3)
      | ']' :: r2 => some (JsonArr.cons v JsonArr.nil, r2)
      | _ => none
end

/-- A text whose first character, if any, is not a digit; what follows
a complete value inside a document always satisfies this, so the number
scanner never reads past the value. -/
def notDigitStart : List Char → Bool
  | [] => true
  | c :: _ => !(isDigitCh c)

/-- The single-digit alternative of the spec's number grammar. -/
def singleDigitSpec (s : List Char) : Prop :=
  ∃ c, s = [c] ∧ isDigitCh c = true

/-- The negated-single-nonzero-digit alternative of the spec's number
grammar. -/
def negDigitSpec (s : List Char) : Prop :=
  ∃ c, s = ['-', c] ∧ isDigit19 c = true

/-- A nonzero-leading digit run of length at least two. -/
def digitRun2 (ds : List Char) : Prop :=
  2 ≤ ds.length ∧ (∀ c ∈ ds, isDigitCh c = true) ∧
    ∃ c rest, ds = c :: rest ∧ isDigit19 c = true

/-- The spec's number grammar, stated as the claim states it: a single
digit, or a minus sign followed by a single nonzero digit, or an
optionally-negated nonzero-leading digit run of length at least two. -/
def numberGrammarSpec (s : List Char) : Prop :=
  singleDigitSpec s ∨ negDigitSpec s ∨
    ∃ ds, (s = ds ∨ s = '-' :: ds) ∧ digitRun2 ds

/-- A state whose stack is either empty or topped by a frame that has
a current member: the states in which a write can succeed.  Every
successful dispatch lands in such a state. -/
def Writable (st : FmtState) : Prop :=
  match st.fmt.object_stack with
  | [] => True
  | frame :: _ => frame.members ≠ []

deriving instance DecidableEq for Except

/-- Render a list of member texts joined by commas; the shape the spec
gives for an assembled object body. -/
def joinComma : List (List Char) → List Char
  | [] => []
  | [x] => x
  | x :: y :: rest => x ++ ',' :: joinComma (y :: rest)

/-- Array elements as a plain list. -/
def arrToList : JsonArr → List JsonValue
  | JsonArr.nil => []
  | JsonArr.cons v vs => v :: arrToList vs

/-- Combined node count of a list of (key, value) pairs; matches
`jsizeMembers` through `JsonMembers.toList`. -/
def pairsSize (l : List (List Char × JsonValue)) : Nat :=
  (l.map (fun p => 1 + jsize p.2)).sum

/-- The number a left-to-right digit scan accumulates on top of `acc`. -/
def digitsVal (acc : Nat) (ds : List Char) : Nat :=
  ds.foldl (fun a c => a * 10 + (c.toNat - 0x30)) acc

/-- The bytes one escape event contributes on the direct (no open
frame) path: the raw byte for a control-byte escape, the UTF-8 bytes of
the table text for every named escape. -/
def escBytesDirect : CharEscape → List Nat
  | CharEscape.AsciiControl b => [b]
  | e => strBytes (escapeChars e)

/-!
Helper lemmas: the byte order, the stable sort, member buffers, the
routing rule, and event sequencing.
-/

theorem strBytes_append (s t : List Char) : strBytes (s ++ t) = strBytes s ++ strBytes t := by
  simp [strBytes]

theorem strBytes_nil : strBytes [] = [] := rfl

theorem bytesLe_refl : ∀ a : List Nat, bytesLe a a = true
  | [] => rfl
  | _ :: as => by simp [bytesLe, bytesLe_refl as]

theorem bytesLe_total : ∀ a b : List Nat, bytesLe a b = true ∨ bytesLe b a = true
  | [], _ => Or.inl rfl
  | _ :: _, [] => Or.inr rfl
  | a :: as, b :: bs => by
    simp only [bytesLe]
    rcases Nat.lt_trichotomy a b with h | h | h
    · left
      simp [h]
    · subst h
      simpa [Nat.lt_irrefl] using bytesLe_total as bs
    · right
      simp [h, Nat.not_lt.mpr (Nat.le_of_lt h)]

theorem bytesLe_trans : ∀ a b c : List Nat,
    bytesLe a b = true → bytesLe b c = true → bytesLe a c = true
  | [], _, _ => fun _ _ => rfl
  | _ :: _, [], _ => by simp [bytesLe]
  | _ :: _, _ :: _, [] => by simp [bytesLe]
  | a :: as, b :: bs, c :: cs => by
    simp only [bytesLe]
    intro h1 h2
    rcases Nat.lt_trichotomy a b with hab | hab | hab
    · rcases Nat.lt_trichotomy b c with hbc | hbc | hbc
      · simp [Nat.lt_trans hab hbc]
      · subst hbc
        simp [hab]
      · simp [hbc, Nat.not_lt.mpr (Nat.le_of_lt hbc)] at h2
    · subst hab
      rcases Nat.lt_trichotomy a c with hac | hac | hac
      · simp [hac]
      · subst hac
        simp [Nat.lt_irrefl] at h1 h2 ⊢
        exact bytesLe_trans as bs cs h1 h2
      · simp [hac, Nat.not_lt.mpr (Nat.le_of_lt hac)] at h2
    · simp [hab, Nat.not_lt.mpr (Nat.le_of_lt hab)] at h1

theorem bytesLe_antisymm : ∀ a b : List Nat,
    bytesLe a b = true → bytesLe b a = true → a = b
  | [], [], _, _ => rfl
  | [], _ :: _, _, h2 => by simp [bytesLe] at h2
  | _ :: _, [], h1, _ => by simp [bytesLe] at h1
  | a :: as, b :: bs, h1, h2 => by
    simp only [bytesLe] at h1 h2
    rcases Nat.lt_trichotomy a b with hab | hab | hab
    · simp [hab, Nat.not_lt.mpr (Nat.le_of_lt hab)] at h2
    · subst hab
      simp [Nat.lt_irrefl] at h1 h2
      rw [bytesLe_antisymm as bs h1 h2]
    · simp [hab, Nat.not_lt.mpr (Nat.le_of_lt hab)] at h1

theorem ordInsert_perm {A : Type} (le : A → A → Bool) (a : A) :
    ∀ l : List A, (ordInsert le a l).Perm (a :: l)
  | [] => List.Perm.refl _
  | b :: rest => by
    simp only [ordInsert]
    by_cases h : le a b
    · simp [h]
    · simp only [h, if_neg]
      exact ((ordInsert_perm le a rest).cons b).trans (List.Perm.swap a b rest)

theorem isort_perm {A : Type} (le : A → A → Bool) :
    ∀ l : List A, (isort le l).Perm l
  | [] => List.Perm.refl _
  | a :: rest =>
    (ordInsert_perm le a (isort le rest)).trans ((isort_perm le rest).cons a)

theorem ordInsert_pairwise {A : Type} {le : A → A → Bool}
    (htotal : ∀ x y, le x y = true ∨ le y x = true)
    (htrans : ∀ x y z, le x y = true → le y z = true → le x z = true)
    (a : A) : ∀ {l : List A}, l.Pairwise (fun x y => le x y = true) →
    (ordInsert le a l).Pairwise (fun x y => le x y = true)
  | [], _ => by simp [ordInsert]
  | b :: rest, hp => by
    simp only [ordInsert]
    rcases List.pairwise_cons.mp hp with ⟨hb, hrest⟩
    by_cases h : le a b = true
    · rw [if_pos h]
      refine List.pairwise_cons.mpr ⟨?_, hp⟩
      intro x hx
      rcases List.mem_cons.mp hx with hx | hx
      · exact hx ▸ h
      · exact htrans a b x h (hb x hx)
    · rw [if_neg h]
      refine List.pairwise_cons.mpr ⟨?_, ordInsert_pairwise htotal htrans a hrest⟩
      intro x hx
      have hx' := (ordInsert_perm le a rest).mem_iff.mp hx
      rcases List.mem_cons.mp hx' with h2 | h2
      · subst h2
        rcases htotal x b with h' | h'
        · exact absurd h' h
        · exact h'
      · exact hb x h2

theorem isort_pairwise {A : Type} {le : A → A → Bool}
    (htotal : ∀ x y, le x y = true ∨ le y x = true)
    (htrans : ∀ x y z, le x y = true → le y z = true → le x z = true) :
    ∀ l : List A, (isort le l).Pairwise (fun x y => le x y = true)
  | [] => List.Pairwise.nil
  | a :: rest => ordInsert_pairwise htotal htrans a (isort_pairwise htotal htrans rest)

theorem ordInsert_map {A B : Type} (leA : A → A → Bool) (leB : B → B → Bool)
    (f : A → B) (hf : ∀ x y, leB (f x) (f y) = leA x y) (a : A) :
    ∀ l : List A, ordInsert leB (f a) (l.map f) = (ordInsert leA a l).map f
  | [] => rfl
  | b :: rest => by
    simp only [List.map_cons, ordInsert, hf]
    by_cases h : leA a b
    · simp [h]
    · simp [h, ordInsert_map leA leB f hf a rest]

theorem isort_map {A B : Type} (leA : A → A → Bool) (leB : B → B → Bool)
    (f : A → B) (hf : ∀ x y, leB (f x) (f y) = leA x y) :
    ∀ l : List A, isort leB (l.map f) = (isort leA l).map f
  | [] => rfl
  | a :: rest => by
    simp only [List.map_cons, isort]
    rw [isort_map leA leB f hf rest, ordInsert_map leA leB f hf]

theorem memberLe_total (a b : ObjectMemberBuffer) :
    memberLe a b = true ∨ memberLe b a = true :=
  bytesLe_total _ _

theorem memberLe_trans (a b c : ObjectMemberBuffer) :
    memberLe a b = true → memberLe b c = true → memberLe a c = true :=
  bytesLe_trans _ _ _

theorem sorted_perm_nodup_eq : ∀ (l₁ l₂ : List ObjectMemberBuffer),
    l₁.Perm l₂ →
    l₁.Pairwise (fun a b => memberLe a b = true) →
    l₂.Pairwise (fun a b => memberLe a b = true) →
    (l₁.map (fun m => strBytes m.key)).Nodup →
    l₁ = l₂
  | [], l₂, hp, _, _, _ => (hp.nil_eq).symm ▸ rfl
  | a :: t₁, l₂, hp, hs₁, hs₂, hnd => by
    rw [List.map_cons] at hnd
    match l₂ with
    | [] => exact absurd hp.symm.nil_eq (by simp)
    | b :: t₂ =>
      have hab : a = b := by
        by_contra hne
        have hbmem : b ∈ a :: t₁ := hp.symm.mem_iff.mp (List.mem_cons_self b t₂)
        have hamem : a ∈ b :: t₂ := hp.mem_iff.mp (List.mem_cons_self a t₁)
        have hb₁ : b ∈ t₁ := by
          rcases List.mem_cons.mp hbmem with h | h
          · exact absurd h.symm hne
          · exact h
        have ha₂ : a ∈ t₂ := by
          rcases List.mem_cons.mp hamem with h | h
          · exact absurd h hne
          · exact h
        have h1 : memberLe a b = true := (List.pairwise_cons.mp hs₁).1 b hb₁
        have h2 : memberLe b a = true := (List.pairwise_cons.mp hs₂).1 a ha₂
        have hkey : strBytes a.key = strBytes b.key := bytesLe_antisymm _ _ h1 h2
        rcases List.nodup_cons.mp hnd with ⟨hnotin, _⟩
        apply hnotin
        rw [hkey]
        exact List.mem_map_of_mem _ hb₁
      subst hab
      have hp' : t₁.Perm t₂ := hp.cons_inv
      have ht : t₁ = t₂ :=
        sorted_perm_nodup_eq t₁ t₂ hp' (List.pairwise_cons.mp hs₁).2
          (List.pairwise_cons.mp hs₂).2 (List.nodup_cons.mp hnd).2
      rw [ht]

theorem push_str_key_finished (m : ObjectMemberBuffer) (s : List Char) :
    (m.push_str s).key_finished = m.key_finished := by
  cases m with
  | mk k v kf => cases kf <;> simp [ObjectMemberBuffer.push_str]

theorem push_str_append (m : ObjectMemberBuffer) (s t : List Char) :
    (m.push_str s).push_str t = m.push_str (s ++ t) := by
  cases m with
  | mk k v kf => cases kf <;> simp [ObjectMemberBuffer.push_str]

theorem push_str_nil (m : ObjectMemberBuffer) : m.push_str [] = m := by
  cases m with
  | mk k v kf => cases kf <;> simp [ObjectMemberBuffer.push_str]

theorem push_eq_push_str (m : ObjectMemberBuffer) (c : Char) :
    m.push c = m.push_str [c] := by
  cases m with
  | mk k v kf =>
    cases kf <;> simp [ObjectMemberBuffer.push, ObjectMemberBuffer.push_str]

theorem modifyLast_append_last {A : Type} (g : A → A) :
    ∀ (ms : List A) (m : A), modifyLast g (ms ++ [m]) = some (ms ++ [g m])
  | [], _ => rfl
  | [_], _ => rfl
  | a :: b :: ms', m => by
    have ih := modifyLast_append_last g (b :: ms') m
    simp only [List.cons_append] at ih ⊢
    rw [modifyLast, ih]

theorem run_cons (st : FmtState) (e : Event) (es : List Event) :
    run st (e :: es) = (step st e).bind (fun st' => run st' es) := by
  cases h : step st e <;> simp [run, h, Except.bind]

theorem run_append (es : List Event) : ∀ (fs : List Event) (st : FmtState),
    run st (es ++ fs) = (run st es).bind (fun st' => run st' fs) := by
  induction es with
  | nil => intro fs st; rfl
  | cons e es ih =>
    intro fs st
    rw [List.cons_append, run_cons, run_cons]
    cases h : step st e with
    | error err => rfl
    | ok st' => simp [Except.bind, ih]

theorem run_single (st : FmtState) (e : Event) : run st [e] = step st e := by
  cases h : step st e <;> simp [run, h]

/-!
Dispatch characterization: the three routing cases, composition, and
preservation of writability.
-/

theorem dispatch_empty (out : List Nat) (s : List Char) :
    dispatch ⟨⟨[]⟩, out⟩ s = Except.ok ⟨⟨[]⟩, out ++ strBytes s⟩ := rfl

theorem dispatch_nomember (rest : List ObjectStackFrame) (out : List Nat) (s : List Char) :
    dispatch ⟨⟨⟨[]⟩ :: rest⟩, out⟩ s = Except.error FmtError.protocolViolation := rfl

theorem dispatch_member (ms : List ObjectMemberBuffer) (m : ObjectMemberBuffer)
    (rest : List ObjectStackFrame) (out : List Nat) (s : List Char) :
    dispatch ⟨⟨⟨ms ++ [m]⟩ :: rest⟩, out⟩ s =
      Except.ok ⟨⟨⟨ms ++ [m.push_str s]⟩ :: rest⟩, out⟩ := by
  simp [dispatch, ObjectStackFrame.withCurrent, modifyLast_append_last]

theorem frame_shape (f : ObjectStackFrame) :
    f = ⟨[]⟩ ∨ ∃ ms m, f = ⟨ms ++ [m]⟩ := by
  rcases List.eq_nil_or_concat f.members with h | ⟨ms, m, h⟩
  · left
    cases f
    simp_all
  · right
    exact ⟨ms, m, by cases f; simp_all⟩

theorem state_shape (st : FmtState) :
    st = ⟨⟨[]⟩, st.output⟩ ∨
    (∃ rest, st = ⟨⟨⟨[]⟩ :: rest⟩, st.output⟩) ∨
    (∃ ms m rest, st = ⟨⟨⟨ms ++ [m]⟩ :: rest⟩, st.output⟩) := by
  rcases st with ⟨⟨stack⟩, out⟩
  rcases stack with _ | ⟨f, rest⟩
  · left
    rfl
  · rcases frame_shape f with h | ⟨ms, m, h⟩
    · right
      left
      exact ⟨rest, by rw [h]⟩
    · right
      right
      exact ⟨ms, m, rest, by rw [h]⟩

theorem dispatch_nil {st : FmtState} (hw : Writable st) : dispatch st [] = Except.ok st := by
  rcases state_shape st with h | ⟨rest, h⟩ | ⟨ms, m, rest, h⟩
  · rw [h, dispatch_empty]
    simp [strBytes]
  · rw [h] at hw
    simp [Writable] at hw
  · rw [h, dispatch_member, push_str_nil]

theorem dispatch_append (st : FmtState) (s t : List Char) :
    dispatch st (s ++ t) = (dispatch st s).bind (fun st' => dispatch st' t) := by
  rcases state_shape st with h | ⟨rest, h⟩ | ⟨ms, m, rest, h⟩
  · rw [h, dispatch_empty, dispatch_empty]
    simp [Except.bind, dispatch_empty, strBytes_append]
  · rw [h, dispatch_nomember, dispatch_nomember]
    rfl
  · rw [h, dispatch_member, dispatch_member]
    simp [Except.bind, dispatch_member, push_str_append]

theorem dispatch_ok_writable {st st' : FmtState} {s : List Char}
    (h : dispatch st s = Except.ok st') : Writable st' := by
  rcases state_shape st with hs | ⟨rest, hs⟩ | ⟨ms, m, rest, hs⟩
  · rw [hs, dispatch_empty] at h
    cases h
    trivial
  · rw [hs, dispatch_nomember] at h
    cases h
  · rw [hs, dispatch_member] at h
    cases h
    simp [Writable]

theorem dispatch_error_indep {st : FmtState} {s t : List Char} {err : FmtError}
    (h : dispatch st s = Except.error err) : dispatch st t = Except.error err := by
  rcases state_shape st with hs | ⟨rest, hs⟩ | ⟨ms, m, rest, hs⟩
  · rw [hs, dispatch_empty] at h
    cases h
  · rw [hs, dispatch_nomember] at h
    cases h
    rw [hs]
    exact dispatch_nomember rest st.output t
  · rw [hs, dispatch_member] at h
    cases h

/-!
Character facts and the escape events: the buffered and the direct
path of an escape event produce the same canonical text.
-/

theorem char_toNat_inj {a b : Char} (h : a.toNat = b.toNat) : a = b := by
  apply Char.ext
  apply UInt32.ext
  exact h

theorem char_ofNat_toNat_lt {n : Nat} (h : n < 0xD800) : (Char.ofNat n).toNat = n := by
  unfold Char.ofNat
  split
  · rfl
  · next hv => exact absurd (Or.inl h) hv

theorem utf8Bytes_low {c : Char} (h : c.toNat < 0x80) : utf8Bytes c = [c.toNat] := by
  simp [utf8Bytes, h]

theorem utf8Bytes_singleton_iff {b : Nat} (hb : b < 256) :
    (utf8Bytes (Char.ofNat b) = [b] ↔ b < 0x80) := by
  have htn : (Char.ofNat b).toNat = b := char_ofNat_toNat_lt (by omega)
  rw [utf8Bytes]
  simp only [htn]
  by_cases h : b < 0x80
  · simp [h]
  · rw [if_neg h, if_pos (by omega)]
    simp only [h, iff_false]
    intro hcontra
    exact absurd (congrArg List.length hcontra) (by simp)

theorem write_char_escape_control_eq_dispatch (st : FmtState) {b : Nat} (hb : b < 0x80) :
    write_char_escape st (CharEscape.AsciiControl b) = dispatch st [Char.ofNat b] := by
  have htn : (Char.ofNat b).toNat = b := char_ofNat_toNat_lt (by omega)
  have hsb : strBytes [Char.ofNat b] = [b] := by
    simp [strBytes, utf8Bytes_low (htn ▸ hb), htn]
  rcases state_shape st with hs | ⟨rest, hs⟩ | ⟨ms, m, rest, hs⟩
  · rw [hs, dispatch_empty, hsb]
    rfl
  · rw [hs, dispatch_nomember]
    rfl
  · rw [hs, dispatch_member]
    simp [write_char_escape, ObjectStackFrame.withCurrent, modifyLast_append_last,
      push_eq_push_str]

theorem charEvent_eq_dispatch (st : FmtState) (c : Char) :
    step st (charEvent c) = dispatch st (escapeOne c) := by
  unfold charEvent
  by_cases hq : c = '"'
  · simp [hq, step, write_char_escape, escapeChars, escapeOne]
  · by_cases hbs : c = '\\'
    · simp [hq, hbs, step, write_char_escape, escapeChars, escapeOne]
    · rw [if_neg hq, if_neg hbs]
      have hesc : escapeOne c = [c] := by simp [escapeOne, hq, hbs]
      by_cases h8 : c.toNat = 0x08
      · rw [if_pos h8, hesc]
        have hc : Char.ofNat 0x08 = c := (char_toNat_inj (by rw [h8]; rfl)).symm
        show dispatch st (escapeChars CharEscape.Backspace) = dispatch st [c]
        rw [show escapeChars CharEscape.Backspace = [Char.ofNat 0x08] from rfl, hc]
      · rw [if_neg h8]
        by_cases h12 : c.toNat = 0x0C
        · rw [if_pos h12, hesc]
          have hc : Char.ofNat 0x0C = c := (char_toNat_inj (by rw [h12]; rfl)).symm
          show dispatch st (escapeChars CharEscape.FormFeed) = dispatch st [c]
          rw [show escapeChars CharEscape.FormFeed = [Char.ofNat 0x0C] from rfl, hc]
        · rw [if_neg h12]
          by_cases h10 : c.toNat = 0x0A
          · rw [if_pos h10, hesc]
            have hc : Char.ofNat 0x0A = c := (char_toNat_inj (by rw [h10]; rfl)).symm
            show dispatch st (escapeChars CharEscape.LineFeed) = dispatch st [c]
            rw [show escapeChars CharEscape.LineFeed = [Char.ofNat 0x0A] from rfl, hc]
          · rw [if_neg h10]
            by_cases h13 : c.toNat = 0x0D
            · rw [if_pos h13, hesc]
              have hc : Char.ofNat 0x0D = c := (char_toNat_inj (by rw [h13]; rfl)).symm
              show dispatch st (escapeChars CharEscape.CarriageReturn) = dispatch st [c]
              rw [show escapeChars CharEscape.CarriageReturn = [Char.ofNat 0x0D] from rfl, hc]
            · rw [if_neg h13]
              by_cases h9 : c.toNat = 0x09
              · rw [if_pos h9, hesc]
                have hc : Char.ofNat 0x09 = c := (char_toNat_inj (by rw [h9]; rfl)).symm
                show dispatch st (escapeChars CharEscape.Tab) = dispatch st [c]
                rw [show escapeChars CharEscape.Tab = [Char.ofNat 0x09] from rfl, hc]
              · rw [if_neg h9]
                by_cases hctl : c.toNat < 0x20
                · rw [if_pos hctl]
                  show write_char_escape st (CharEscape.AsciiControl c.toNat) = _
                  rw [write_char_escape_control_eq_dispatch st (by omega), hesc,
                    Char.ofNat_toNat]
                · rw [if_neg hctl]
                  show write_string_fragment st [c] = _
                  rw [hesc]
                  rfl

theorem run_charEvents : ∀ (s : List Char) (st : FmtState), Writable st →
    run st (s.map charEvent) = dispatch st (renderStrContent s)
  | [], st, hw => by
    rw [List.map_nil, show renderStrContent [] = ([] : List Char) from rfl, dispatch_nil hw]
    rfl
  | c :: s, st, hw => by
    rw [List.map_cons, run_cons, charEvent_eq_dispatch]
    rw [show renderStrContent (c :: s) = escapeOne c ++ renderStrContent s from by
      simp [renderStrContent]]
    rw [dispatch_append]
    cases h : dispatch st (escapeOne c) with
    | error err => rfl
    | ok st1 =>
      simp only [Except.bind]
      exact run_charEvents s st1 (dispatch_ok_writable h)

theorem run_stringEvents (s : List Char) (st : FmtState) :
    run st (stringEvents s) = dispatch st (renderStr s) := by
  rw [show stringEvents s = [Event.beginString] ++ (s.map charEvent ++ [Event.endString]) from by
    simp [stringEvents]]
  rw [show renderStr s = ['"'] ++ (renderStrContent s ++ ['"']) from by simp [renderStr]]
  rw [run_append, dispatch_append]
  rw [show run st [Event.beginString] = dispatch st ['"'] from by rw [run_single]; rfl]
  cases h : dispatch st ['"'] with
  | error err => rfl
  | ok st1 =>
    simp only [Except.bind]
    rw [run_append, run_charEvents s st1 (dispatch_ok_writable h), dispatch_append]
    cases h2 : dispatch st1 (renderStrContent s) with
    | error err => rfl
    | ok st2 =>
      simp only [Except.bind]
      rw [run_single]
      rfl

theorem end_object_key_member (ms : List ObjectMemberBuffer) (m : ObjectMemberBuffer)
    (rest : List ObjectStackFrame) (out : List Nat) :
    end_object_key ⟨⟨⟨ms ++ [m]⟩ :: rest⟩, out⟩ =
      Except.ok ⟨⟨⟨ms ++ [m.finish_key]⟩ :: rest⟩, out⟩ := by
  simp [end_object_key, ObjectStackFrame.withCurrent, modifyLast_append_last]


mutual
theorem run_eventsOf : ∀ (v : JsonValue) (st : FmtState),
    run st (eventsOf v) = dispatch st (render v)
  | JsonValue.null, st => by
    rw [show eventsOf JsonValue.null = [Event.writeNull] from rfl, run_single]
    rfl
  | JsonValue.bool b, st => by
    rw [show eventsOf (JsonValue.bool b) = [Event.writeBool b] from rfl, run_single]
    rfl
  | JsonValue.int n, st => by
    rw [show eventsOf (JsonValue.int n) = [Event.writeI64 n] from rfl, run_single]
    rfl
  | JsonValue.str s, st => run_stringEvents s st
  | JsonValue.arr vs, st => by
    rw [show eventsOf (JsonValue.arr vs) =
      [Event.beginArray] ++ (arrEvents true vs ++ [Event.endArray]) from by simp [eventsOf]]
    rw [show render (JsonValue.arr vs) =
      ['['] ++ (renderArr true vs ++ [']']) from by simp [render]]
    rw [run_append, dispatch_append]
    rw [show run st [Event.beginArray] = dispatch st ['['] from by rw [run_single]; rfl]
    cases h : dispatch st ['['] with
    | error err => rfl
    | ok st1 =>
      simp only [Except.bind]
      rw [run_append, dispatch_append, run_arrEvents vs true st1 (dispatch_ok_writable h)]
      cases h2 : dispatch st1 (renderArr true vs) with
      | error err => rfl
      | ok st2 =>
        simp only [Except.bind]
        rw [run_single]
        rfl
  | JsonValue.obj ms, st => by
    rw [show eventsOf (JsonValue.obj ms) =
      [Event.beginObject] ++ (memberEvents true ms ++ [Event.endObject]) from by
        simp [eventsOf]]
    rw [run_append]
    rw [show run st [Event.beginObject] =
      Except.ok ⟨⟨ObjectStackFrame.new :: st.fmt.object_stack⟩, st.output⟩ from by
        rw [run_single]; rfl]
    simp only [Except.bind]
    rw [run_append, run_memberEvents ms true ObjectStackFrame.new st.fmt.object_stack st.output]
    simp only [Except.bind]
    rw [run_single]
    rfl

theorem run_arrEvents : ∀ (vs : JsonArr) (first : Bool) (st : FmtState), Writable st →
    run st (arrEvents first vs) = dispatch st (renderArr first vs)
  | JsonArr.nil, first, st, hw => by
    rw [show arrEvents first JsonArr.nil = [] from rfl,
      show renderArr first JsonArr.nil = [] from rfl, dispatch_nil hw]
    rfl
  | JsonArr.cons v vs, first, st, hw => by
    rw [show arrEvents first (JsonArr.cons v vs) =
      [Event.beginArrayValue first] ++ (eventsOf v ++
        ([Event.endArrayValue] ++ arrEvents false vs)) from by simp [arrEvents]]
    rw [show renderArr first (JsonArr.cons v vs) =
      (if first then [] else [',']) ++ (render v ++ renderArr false vs) from by
        simp [renderArr]]
    rw [run_append, dispatch_append]
    rw [show run st [Event.beginArrayValue first] =
      dispatch st (if first then [] else [',']) from by
        rw [run_single]
        cases first
        · rfl
        · rw [if_pos rfl, dispatch_nil hw]
          rfl]
    cases h : dispatch st (if first then [] else [',']) with
    | error err => rfl
    | ok st1 =>
      simp only [Except.bind]
      rw [run_append, dispatch_append, run_eventsOf v st1]
      cases h2 : dispatch st1 (render v) with
      | error err => rfl
      | ok st2 =>
        simp only [Except.bind]
        rw [show run st2 ([Event.endArrayValue] ++ arrEvents false vs) =
          run st2 (arrEvents false vs) from by
            rw [run_append, run_single]
            rfl]
        exact run_arrEvents vs false st2 (dispatch_ok_writable h2)

theorem run_memberEvents : ∀ (ms : JsonMembers) (first : Bool) (f : ObjectStackFrame)
    (rest : List ObjectStackFrame) (out : List Nat),
    run ⟨⟨f :: rest⟩, out⟩ (memberEvents first ms) =
      Except.ok ⟨⟨⟨f.members ++ renderMembers ms⟩ :: rest⟩, out⟩
  | JsonMembers.nil, first, f, rest, out => by
    rw [show memberEvents first JsonMembers.nil = [] from rfl]
    rw [show renderMembers JsonMembers.nil = [] from rfl]
    rw [List.append_nil]
    rfl
  | JsonMembers.cons k v ms, first, f, rest, out => by
    rw [show memberEvents first (JsonMembers.cons k v ms) =
      [Event.beginObjectKey first] ++ (stringEvents k ++
        ([Event.endObjectKey, Event.beginObjectValue] ++ (eventsOf v ++
          ([Event.endObjectValue] ++ memberEvents false ms)))) from by simp [memberEvents]]
    rw [run_append]
    rw [show run ⟨⟨f :: rest⟩, out⟩ [Event.beginObjectKey first] =
      Except.ok ⟨⟨⟨f.members ++ [ObjectMemberBuffer.new]⟩ :: rest⟩, out⟩ from by
        rw [run_single]; rfl]
    simp only [Except.bind]
    rw [run_append, run_stringEvents, dispatch_member]
    simp only [Except.bind]
    rw [show ObjectMemberBuffer.new.push_str (renderStr k) =
      (⟨renderStr k, [], false⟩ : ObjectMemberBuffer) from rfl]
    rw [run_append]
    rw [show run ⟨⟨⟨f.members ++ [⟨renderStr k, [], false⟩]⟩ :: rest⟩, out⟩
      [Event.endObjectKey, Event.beginObjectValue] =
      Except.ok ⟨⟨⟨f.members ++ [⟨renderStr k, [], true⟩]⟩ :: rest⟩, out⟩ from by
        rw [run_cons, show step ⟨⟨⟨f.members ++ [⟨renderStr k, [], false⟩]⟩ :: rest⟩, out⟩
          Event.endObjectKey = end_object_key
            ⟨⟨⟨f.members ++ [⟨renderStr k, [], false⟩]⟩ :: rest⟩, out⟩ from rfl]
        rw [end_object_key_member]
        simp only [Except.bind]
        rw [run_single]
        rfl]
    simp only [Except.bind]
    rw [run_append, run_eventsOf v, dispatch_member]
    simp only [Except.bind]
    rw [show (⟨renderStr k, [], true⟩ : ObjectMemberBuffer).push_str (render v) =
      (⟨renderStr k, render v, true⟩ : ObjectMemberBuffer) from rfl]
    rw [show run ⟨⟨⟨f.members ++ [⟨renderStr k, render v, true⟩]⟩ :: rest⟩, out⟩
      ([Event.endObjectValue] ++ memberEvents false ms) =
      run ⟨⟨⟨f.members ++ [⟨renderStr k, render v, true⟩]⟩ :: rest⟩, out⟩
        (memberEvents false ms) from by
        rw [run_append, run_single]
        rfl]
    have hrec := run_memberEvents ms false ⟨f.members ++ [⟨renderStr k, render v, true⟩]⟩ rest out
    rw [show (⟨f.members ++ [⟨renderStr k, render v, true⟩]⟩ : ObjectStackFrame).members =
      f.members ++ [⟨renderStr k, render v, true⟩] from rfl] at hrec
    rw [hrec, List.append_assoc]
    rfl
end

/-!
The assembled object text: comma-joined members, and invariance of the
assembled text under permutations of the member list.
-/

theorem member_string_true (m : ObjectMemberBuffer) :
    m.string true = m.key ++ ':' :: m.value := rfl

theorem member_string_false (m : ObjectMemberBuffer) :
    m.string false = ',' :: (m.key ++ ':' :: m.value) := rfl

theorem joinComma_cons (x : List Char) : ∀ xs : List (List Char),
    joinComma (x :: xs) = x ++ (xs.map (fun y => ',' :: y)).flatten
  | [] => by simp [joinComma]
  | y :: rest => by
    rw [joinComma, joinComma_cons y rest]
    simp

theorem rfm_false_eq : ∀ l : List ObjectMemberBuffer,
    renderFrameMembers false l = (l.map (fun m => ',' :: (m.key ++ ':' :: m.value))).flatten
  | [] => rfl
  | m :: rest => by
    rw [renderFrameMembers, rfm_false_eq rest, member_string_false]
    simp

theorem rfm_false_cons (m : ObjectMemberBuffer) (l : List ObjectMemberBuffer) :
    renderFrameMembers false (m :: l) = ',' :: renderFrameMembers true (m :: l) := by
  rw [renderFrameMembers, renderFrameMembers, member_string_false, member_string_true]
  rfl

theorem rfm_true_join : ∀ l : List ObjectMemberBuffer,
    renderFrameMembers true l = joinComma (l.map (fun m => m.key ++ ':' :: m.value))
  | [] => rfl
  | m :: rest => by
    rw [renderFrameMembers, rfm_false_eq rest, member_string_true, List.map_cons,
      joinComma_cons, List.map_map]
    rfl

theorem frame_string_eq (f : ObjectStackFrame) :
    ObjectStackFrame.string f =
      Char.ofNat 0x7B ::
        joinComma ((isort memberLe f.members).map (fun m => m.key ++ ':' :: m.value)) ++
        [Char.ofNat 0x7D] := by
  rw [ObjectStackFrame.string, rfm_true_join]

theorem frame_string_perm {ms ms' : List ObjectMemberBuffer}
    (hperm : ms.Perm ms')
    (hnd : (ms.map (fun m => strBytes m.key)).Nodup) :
    ObjectStackFrame.string ⟨ms⟩ = ObjectStackFrame.string ⟨ms'⟩ := by
  have hsorteq : isort memberLe ms = isort memberLe ms' := by
    apply sorted_perm_nodup_eq
    · exact (isort_perm memberLe ms).trans (hperm.trans (isort_perm memberLe ms').symm)
    · exact isort_pairwise memberLe_total memberLe_trans ms
    · exact isort_pairwise memberLe_total memberLe_trans ms'
    · exact (((isort_perm memberLe ms).map _).nodup_iff).mpr hnd
  rw [ObjectStackFrame.string, ObjectStackFrame.string]
  show Char.ofNat 0x7B :: renderFrameMembers true (isort memberLe ms) ++ [Char.ofNat 0x7D] = _
  rw [hsorteq]

/-!
Member lists as pair lists, canonical forms, and logical equality.
-/

theorem ofList_toList : ∀ ms : JsonMembers, JsonMembers.ofList ms.toList = ms
  | JsonMembers.nil => rfl
  | JsonMembers.cons k v ms => by
    rw [JsonMembers.toList, JsonMembers.ofList, ofList_toList ms]

theorem toList_ofList : ∀ l : List (List Char × JsonValue),
    (JsonMembers.ofList l).toList = l
  | [] => rfl
  | (k, v) :: rest => by
    rw [JsonMembers.ofList, JsonMembers.toList, toList_ofList rest]

theorem canonMembers_toList : ∀ ms : JsonMembers,
    (canonMembers ms).toList = ms.toList.map (fun p => (p.1, canon p.2))
  | JsonMembers.nil => rfl
  | JsonMembers.cons k v ms => by
    rw [show canonMembers (JsonMembers.cons k v ms) =
      JsonMembers.cons k (canon v) (canonMembers ms) from rfl]
    rw [JsonMembers.toList, JsonMembers.toList, canonMembers_toList ms, List.map_cons]

theorem renderMembers_eq_map : ∀ ms : JsonMembers,
    renderMembers ms =
      ms.toList.map (fun p => (⟨renderStr p.1, render p.2, true⟩ : ObjectMemberBuffer))
  | JsonMembers.nil => rfl
  | JsonMembers.cons k v ms => by
    rw [show renderMembers (JsonMembers.cons k v ms) =
      (⟨renderStr k, render v, true⟩ : ObjectMemberBuffer) :: renderMembers ms from rfl]
    rw [renderMembers_eq_map ms, JsonMembers.toList, List.map_cons]

theorem jsizeMembers_eq_pairsSize : ∀ ms : JsonMembers, jsizeMembers ms = pairsSize ms.toList
  | JsonMembers.nil => rfl
  | JsonMembers.cons k v ms => by
    rw [show jsizeMembers (JsonMembers.cons k v ms) = 1 + jsize v + jsizeMembers ms from rfl,
      jsizeMembers_eq_pairsSize ms, JsonMembers.toList]
    simp [pairsSize]

theorem pairsSize_perm {l l' : List (List Char × JsonValue)} (h : l.Perm l') :
    pairsSize l = pairsSize l' :=
  List.Perm.sum_eq (h.map _)

theorem jsize_le_of_mem_arr : ∀ {vs : JsonArr} {v : JsonValue},
    v ∈ arrToList vs → jsize v ≤ jsizeArr vs
  | JsonArr.nil, v, h => by simp [arrToList] at h
  | JsonArr.cons w vs, v, h => by
    rw [arrToList] at h
    rw [show jsizeArr (JsonArr.cons w vs) = 1 + jsize w + jsizeArr vs from rfl]
    rcases List.mem_cons.mp h with h | h
    · subst h
      omega
    · have := jsize_le_of_mem_arr h
      omega

theorem jsize_le_of_mem_members : ∀ {ms : JsonMembers} {p : List Char × JsonValue},
    p ∈ ms.toList → jsize p.2 ≤ jsizeMembers ms
  | JsonMembers.nil, p, h => by simp [JsonMembers.toList] at h
  | JsonMembers.cons k v ms, p, h => by
    rw [JsonMembers.toList] at h
    rw [show jsizeMembers (JsonMembers.cons k v ms) = 1 + jsize v + jsizeMembers ms from rfl]
    rcases List.mem_cons.mp h with h | h
    · subst h
      have hv : jsize (k, v).2 = jsize v := rfl
      omega
    · have := jsize_le_of_mem_members h
      omega

mutual
theorem permEq_refl : ∀ v : JsonValue, PermEq v v
  | JsonValue.null => PermEq.null
  | JsonValue.bool b => PermEq.bool b
  | JsonValue.int n => PermEq.int n
  | JsonValue.str s => PermEq.str s
  | JsonValue.arr vs => PermEq.arr (permEqArr_refl vs)
  | JsonValue.obj ms => PermEq.obj (permEqMembers_refl ms)
theorem permEqArr_refl : ∀ vs : JsonArr, PermEqArr vs vs
  | JsonArr.nil => PermEqArr.nil
  | JsonArr.cons v vs => PermEqArr.cons (permEq_refl v) (permEqArr_refl vs)
theorem permEqMembers_refl : ∀ ms : JsonMembers, PermEqMembers ms ms
  | JsonMembers.nil => PermEqMembers.nil
  | JsonMembers.cons _ v ms => PermEqMembers.cons (permEq_refl v) (permEqMembers_refl ms)
end

theorem permEqMembers_of_perm {l l' : List (List Char × JsonValue)} (h : l.Perm l') :
    PermEqMembers (JsonMembers.ofList l) (JsonMembers.ofList l') := by
  induction h with
  | nil => exact PermEqMembers.nil
  | cons x _ ih =>
    obtain ⟨k, v⟩ := x
    exact PermEqMembers.cons (permEq_refl v) ih
  | swap x y l =>
    obtain ⟨k1, v1⟩ := y
    obtain ⟨k2, v2⟩ := x
    exact PermEqMembers.swap
  | trans _ _ ih1 ih2 => exact PermEqMembers.trans ih1 ih2

theorem sortMembers_permEq (ms : JsonMembers) : PermEqMembers (sortMembers ms) ms := by
  have h := permEqMembers_of_perm (isort_perm pairLe ms.toList)
  rw [ofList_toList] at h
  exact h

mutual
theorem canon_permEq : ∀ v : JsonValue, PermEq (canon v) v
  | JsonValue.null => PermEq.null
  | JsonValue.bool b => PermEq.bool b
  | JsonValue.int n => PermEq.int n
  | JsonValue.str s => PermEq.str s
  | JsonValue.arr vs => PermEq.arr (canonArr_permEq vs)
  | JsonValue.obj ms =>
    PermEq.obj (PermEqMembers.trans (sortMembers_permEq (canonMembers ms))
      (canonMembers_permEq ms))
theorem canonArr_permEq : ∀ vs : JsonArr, PermEqArr (canonArr vs) vs
  | JsonArr.nil => PermEqArr.nil
  | JsonArr.cons v vs => PermEqArr.cons (canon_permEq v) (canonArr_permEq vs)
theorem canonMembers_permEq : ∀ ms : JsonMembers, PermEqMembers (canonMembers ms) ms
  | JsonMembers.nil => PermEqMembers.nil
  | JsonMembers.cons _ v ms => PermEqMembers.cons (canon_permEq v) (canonMembers_permEq ms)
end

/-!
Decimal text: the canonical digits of a number scan back to the number.
-/

theorem digit_ne {c : Char} (hd : isDigitCh c = true) {x : Char}
    (hx : isDigitCh x = false) : c ≠ x := by
  intro h
  subst h
  rw [hd] at hx
  cases hx

theorem digitsVal_append (acc : Nat) (xs ys : List Char) :
    digitsVal acc (xs ++ ys) = digitsVal (digitsVal acc xs) ys := by
  simp [digitsVal, List.foldl_append]

theorem parseDigits_run : ∀ (ds : List Char), ds.all isDigitCh = true →
    ∀ (rest : List Char), notDigitStart rest = true →
    ∀ acc, parseDigits acc (ds ++ rest) = (digitsVal acc ds, rest)
  | [], _, rest, hrest, acc => by
    rw [List.nil_append]
    cases rest with
    | nil => rfl
    | cons c r =>
      rw [notDigitStart, Bool.not_eq_true'] at hrest
      rw [parseDigits, if_neg (by rw [hrest]; exact Bool.false_ne_true)]
      rfl
  | d :: ds, hall, rest, hrest, acc => by
    rw [List.all_cons, Bool.and_eq_true] at hall
    rw [List.cons_append, parseDigits, if_pos hall.1,
      parseDigits_run ds hall.2 rest hrest]
    rfl

theorem natCharsAux_spec : ∀ (fuel n : Nat), n < fuel →
    (natCharsAux fuel n).all isDigitCh = true ∧
    ∀ acc, digitsVal acc (natCharsAux fuel n) =
      acc * 10 ^ (natCharsAux fuel n).length + n
  | 0, n, h => absurd h (Nat.not_lt_zero n)
  | fuel + 1, n, h => by
    by_cases h10 : n < 10
    · rw [natCharsAux, if_pos h10]
      have htn : (Char.ofNat (0x30 + n)).toNat = 0x30 + n := char_ofNat_toNat_lt (by omega)
      constructor
      · simp [isDigitCh, htn]
        omega
      · intro acc
        simp [digitsVal, htn]
    · rw [natCharsAux, if_neg h10]
      have hlt : n / 10 < fuel := by
        have h2 : n / 10 < n := Nat.div_lt_self (by omega) (by omega)
        omega
      obtain ⟨ihall, ihval⟩ := natCharsAux_spec fuel (n / 10) hlt
      have htn : (Char.ofNat (0x30 + n % 10)).toNat = 0x30 + n % 10 :=
        char_ofNat_toNat_lt (by omega)
      constructor
      · rw [List.all_append, ihall]
        simp [isDigitCh, htn]
        omega
      · intro acc
        rw [digitsVal_append, ihval acc]
        rw [show digitsVal (acc * 10 ^ (natCharsAux fuel (n / 10)).length + n / 10)
          [Char.ofNat (0x30 + n % 10)] =
          (acc * 10 ^ (natCharsAux fuel (n / 10)).length + n / 10) * 10 +
            ((Char.ofNat (0x30 + n % 10)).toNat - 0x30) from rfl, htn]
        rw [List.length_append, List.length_singleton, Nat.pow_succ]
        have hdm : n / 10 * 10 + n % 10 = n := by omega
        calc (acc * 10 ^ (natCharsAux fuel (n / 10)).length + n / 10) * 10 +
              (0x30 + n % 10 - 0x30)
            = acc * (10 ^ (natCharsAux fuel (n / 10)).length * 10) +
              (n / 10 * 10 + n % 10) := by ring_nf; omega
          _ = acc * (10 ^ (natCharsAux fuel (n / 10)).length * 10) + n := by rw [hdm]

theorem natCharsAux_ne_nil : ∀ (fuel n : Nat), n < fuel → natCharsAux fuel n ≠ []
  | 0, n, h => absurd h (Nat.not_lt_zero n)
  | fuel + 1, n, _ => by
    rw [natCharsAux]
    by_cases h10 : n < 10
    · rw [if_pos h10]
      simp
    · rw [if_neg h10]
      simp

theorem natChars_head (n : Nat) : ∃ d ds, natChars n = d :: ds ∧ isDigitCh d = true ∧
    (d :: ds).all isDigitCh = true ∧ digitsVal 0 (d :: ds) = n := by
  obtain ⟨hall, hval⟩ := natCharsAux_spec (n + 1) n (Nat.lt_succ_self n)
  have hne := natCharsAux_ne_nil (n + 1) n (Nat.lt_succ_self n)
  rw [show natCharsAux (n + 1) n = natChars n from rfl] at hall hval hne
  cases hch : natChars n with
  | nil => exact absurd hch hne
  | cons d ds =>
    rw [hch] at hall hval
    refine ⟨d, ds, rfl, ?_, hall, ?_⟩
    · rw [List.all_cons, Bool.and_eq_true] at hall
      exact hall.1
    · rw [hval 0]
      omega

/-!
Parsing the canonical text back: literals, numbers, strings.
-/

theorem parseValue_null (f : Nat) (rest : List Char) :
    parseValue (f + 1) ("null".data ++ rest) = some (JsonValue.null, rest) := rfl

theorem parseValue_true (f : Nat) (rest : List Char) :
    parseValue (f + 1) ("true".data ++ rest) = some (JsonValue.bool true, rest) := rfl

theorem parseValue_false (f : Nat) (rest : List Char) :
    parseValue (f + 1) ("false".data ++ rest) = some (JsonValue.bool false, rest) := rfl

theorem parseValue_int (n : Int) (f : Nat) (rest : List Char)
    (hrest : notDigitStart rest = true) :
    parseValue (f + 1) (intChars n ++ rest) = some (JsonValue.int n, rest) := by
  by_cases hneg : n < 0
  · rw [intChars, if_pos hneg]
    obtain ⟨d, ds, hds, hd, hall, hval⟩ := natChars_head n.natAbs
    rw [hds, List.cons_append, List.cons_append]
    show (if isDigitCh d = true then
      match parseDigits 0 (d :: (ds ++ rest)) with
      | (m, r) => some (JsonValue.int (-(m : Int)), r)
      else none) = some (JsonValue.int n, rest)
    rw [if_pos hd]
    rw [show d :: (ds ++ rest) = (d :: ds) ++ rest from rfl,
      parseDigits_run (d :: ds) hall rest hrest 0, hval]
    show some (JsonValue.int (-(n.natAbs : Int)), rest) = some (JsonValue.int n, rest)
    have hn : -(n.natAbs : Int) = n := by omega
    rw [hn]
  · rw [intChars, if_neg hneg]
    obtain ⟨d, ds, hds, hd, hall, hval⟩ := natChars_head n.toNat
    rw [hds, List.cons_append]
    simp only [parseValue]
    rw [if_neg (digit_ne hd (by decide)), if_neg (digit_ne hd (by decide)),
      if_neg (digit_ne hd (by decide)), if_neg (digit_ne hd (by decide)),
      if_neg (digit_ne hd (by decide)), if_neg (digit_ne hd (by decide)),
      if_neg (digit_ne hd (by decide)), if_pos hd]
    rw [show d :: (ds ++ rest) = (d :: ds) ++ rest from rfl,
      parseDigits_run (d :: ds) hall rest hrest 0, hval]
    show some (JsonValue.int ((n.toNat : Nat) : Int), rest) = some (JsonValue.int n, rest)
    have hn : ((n.toNat : Nat) : Int) = n := by omega
    rw [hn]

theorem parseStringContent_render : ∀ (s rest : List Char),
    parseStringContent (renderStrContent s ++ '"' :: rest) = some (s, rest)
  | [], rest => by
    rw [show renderStrContent [] = ([] : List Char) from rfl, List.nil_append]
    rfl
  | c :: s, rest => by
    rw [show renderStrContent (c :: s) = escapeOne c ++ renderStrContent s from by
      simp [renderStrContent]]
    by_cases hq : c = '"'
    · subst hq
      rw [show escapeOne '"' = ['\\', '"'] from rfl]
      rw [show (['\\', '"'] ++ renderStrContent s) ++ '"' :: rest =
        '\\' :: '"' :: (renderStrContent s ++ '"' :: rest) from by simp]
      show (match parseStringContent (renderStrContent s ++ '"' :: rest) with
        | none => none
        | some (s', r) => some ('"' :: s', r)) = some ('"' :: s, rest)
      rw [parseStringContent_render s rest]
    · by_cases hbs : c = '\\'
      · subst hbs
        rw [show escapeOne '\\' = ['\\', '\\'] from by simp [escapeOne]]
        rw [show (['\\', '\\'] ++ renderStrContent s) ++ '"' :: rest =
          '\\' :: '\\' :: (renderStrContent s ++ '"' :: rest) from by simp]
        show (match parseStringContent (renderStrContent s ++ '"' :: rest) with
          | none => none
          | some (s', r) => some ('\\' :: s', r)) = some ('\\' :: s, rest)
        rw [parseStringContent_render s rest]
      · rw [show escapeOne c = [c] from by simp [escapeOne, hq, hbs]]
        rw [show ([c] ++ renderStrContent s) ++ '"' :: rest =
          c :: (renderStrContent s ++ '"' :: rest) from by simp]
        rw [parseStringContent, if_neg hq, if_neg hbs,
          parseStringContent_render s rest]

theorem parseValue_str (s : List Char) (f : Nat) (rest : List Char) :
    parseValue (f + 1) (renderStr s ++ rest) = some (JsonValue.str s, rest) := by
  rw [show renderStr s ++ rest = '"' :: (renderStrContent s ++ '"' :: rest) from by
    simp [renderStr]]
  show (match parseStringContent (renderStrContent s ++ '"' :: rest) with
    | none => none
    | some (s', r) => some (JsonValue.str s', r)) = some (JsonValue.str s, rest)
  rw [parseStringContent_render s rest]

theorem render_head : ∀ v : JsonValue, ∃ c cs, render v = c :: cs ∧
    (isDigitCh c = true ∨ c = '-' ∨ c = '"' ∨ c = 't' ∨ c = 'f' ∨ c = 'n' ∨
      c = '[' ∨ c = Char.ofNat 0x7B)
  | JsonValue.null => ⟨'n', ['u', 'l', 'l'], rfl, by simp⟩
  | JsonValue.bool true => ⟨'t', ['r', 'u', 'e'], rfl, by simp⟩
  | JsonValue.bool false => ⟨'f', ['a', 'l', 's', 'e'], rfl, by simp⟩
  | JsonValue.int n => by
    by_cases hneg : n < 0
    · refine ⟨'-', natChars n.natAbs, ?_, by simp⟩
      rw [show render (JsonValue.int n) = intChars n from rfl, intChars, if_pos hneg]
    · obtain ⟨d, ds, hds, hd, _, _⟩ := natChars_head n.toNat
      refine ⟨d, ds, ?_, Or.inl hd⟩
      rw [show render (JsonValue.int n) = intChars n from rfl, intChars, if_neg hneg, hds]
  | JsonValue.str s => ⟨'"', renderStrContent s ++ ['"'], rfl, by simp⟩
  | JsonValue.arr vs => ⟨'[', renderArr true vs ++ [']'], rfl, by simp⟩
  | JsonValue.obj ms =>
    ⟨Char.ofNat 0x7B,
      renderFrameMembers true (isort memberLe (renderMembers ms)) ++ [Char.ofNat 0x7D],
      rfl, by simp⟩

theorem render_head_ne (v : JsonValue) : ∃ c cs, render v = c :: cs ∧ c ≠ ']' := by
  obtain ⟨c, cs, hc, hd⟩ := render_head v
  refine ⟨c, cs, hc, ?_⟩
  rcases hd with h | h | h | h | h | h | h | h
  · exact digit_ne h (by decide)
  · subst h; decide
  · subst h; decide
  · subst h; decide
  · subst h; decide
  · subst h; decide
  · subst h; decide
  · subst h; decide

theorem parseValue_lbracket (f : Nat) (c : Char) (cs : List Char) (hc : c ≠ ']') :
    parseValue (f + 1) ('[' :: c :: cs) =
      (match parseElems f (c :: cs) with
       | none => none
       | some (vs, r) => some (JsonValue.arr vs, r)) := by
  show (if c = ']' then some (JsonValue.arr JsonArr.nil, cs)
    else match parseElems f (c :: cs) with
      | none => none
      | some (vs, r) => some (JsonValue.arr vs, r)) = _
  rw [if_neg hc]

theorem parseValue_lbrace (f : Nat) (c : Char) (cs : List Char)
    (hc : c ≠ Char.ofNat 0x7D) :
    parseValue (f + 1) (Char.ofNat 0x7B :: c :: cs) =
      (match parseMembers f (c :: cs) with
       | none => none
       | some (ms, r) => some (JsonValue.obj ms, r)) := by
  show (if c = Char.ofNat 0x7D then some (JsonValue.obj JsonMembers.nil, cs)
    else match parseMembers f (c :: cs) with
      | none => none
      | some (ms, r) => some (JsonValue.obj ms, r)) = _
  rw [if_neg hc]

theorem jsize_pos : ∀ v : JsonValue, 1 ≤ jsize v
  | JsonValue.null => Nat.le_refl 1
  | JsonValue.bool _ => Nat.le_refl 1
  | JsonValue.int _ => Nat.le_refl 1
  | JsonValue.str _ => Nat.le_refl 1
  | JsonValue.arr vs => Nat.le_add_right 1 (jsizeArr vs)
  | JsonValue.obj ms => Nat.le_add_right 1 (jsizeMembers ms)

theorem toList_eq_nil {ms : JsonMembers} (h : ms.toList = []) : ms = JsonMembers.nil := by
  cases ms with
  | nil => rfl
  | cons k v ms => rw [JsonMembers.toList] at h; cases h

theorem memberLe_build (a b : List Char × JsonValue) :
    memberLe ⟨renderStr a.1, render a.2, true⟩ ⟨renderStr b.1, render b.2, true⟩ =
      pairLe a b := rfl

theorem parseElems_render : ∀ (vs : JsonArr) (w : JsonValue) (f : Nat) (rest : List Char),
    (∀ u ∈ arrToList (JsonArr.cons w vs), ∀ f2 r2, jsize u ≤ f2 →
      notDigitStart r2 = true → parseValue f2 (render u ++ r2) = some (canon u, r2)) →
    1 + jsize w + jsizeArr vs ≤ f →
    parseElems f (render w ++ (renderArr false vs ++ (']' :: rest))) =
      some (JsonArr.cons (canon w) (canonArr vs), rest)
  | JsonArr.nil, w, f, rest, hP, hf => by
    obtain ⟨f', rfl⟩ : ∃ f', f = f' + 1 := ⟨f - 1, by omega⟩
    rw [show renderArr false JsonArr.nil = ([] : List Char) from rfl, List.nil_append]
    have hpv : parseValue f' (render w ++ ']' :: rest) = some (canon w, ']' :: rest) :=
      hP w (by rw [arrToList]; exact List.mem_cons_self _ _) f' _ (by omega) rfl
    simp only [parseElems, hpv]
    rfl
  | JsonArr.cons u vs', w, f, rest, hP, hf => by
    obtain ⟨f', rfl⟩ : ∃ f', f = f' + 1 := ⟨f - 1, by omega⟩
    have hsz : jsizeArr (JsonArr.cons u vs') = 1 + jsize u + jsizeArr vs' := rfl
    rw [show renderArr false (JsonArr.cons u vs') ++ (']' :: rest) =
      ',' :: (render u ++ (renderArr false vs' ++ (']' :: rest))) from by
        simp [renderArr]]
    have hpv : parseValue f'
        (render w ++ (',' :: (render u ++ (renderArr false vs' ++ (']' :: rest))))) =
        some (canon w, ',' :: (render u ++ (renderArr false vs' ++ (']' :: rest)))) :=
      hP w (by rw [arrToList]; exact List.mem_cons_self _ _) f' _ (by omega) rfl
    have hrec := parseElems_render vs' u f' rest
      (fun q hq => hP q (by rw [arrToList]; exact List.mem_cons_of_mem w hq)) (by omega)
    simp only [parseElems, hpv, hrec]
    rfl

theorem parseMembers_render : ∀ (ps : List (List Char × JsonValue)) (k : List Char)
    (w : JsonValue) (f : Nat) (rest : List Char),
    (∀ q ∈ (k, w) :: ps, ∀ f2 r2, jsize q.2 ≤ f2 → notDigitStart r2 = true →
      parseValue f2 (render q.2 ++ r2) = some (canon q.2, r2)) →
    pairsSize ((k, w) :: ps) ≤ f →
    parseMembers f
      (renderFrameMembers true (((k, w) :: ps).map
        (fun q => (⟨renderStr q.1, render q.2, true⟩ : ObjectMemberBuffer))) ++
        (Char.ofNat 0x7D :: rest)) =
      some (JsonMembers.ofList (((k, w) :: ps).map (fun q => (q.1, canon q.2))), rest)
  | [], k, w, f, rest, hP, hf => by
    obtain ⟨f', rfl⟩ : ∃ f', f = f' + 1 := ⟨f - 1, by
      have : pairsSize [(k, w)] = 1 + jsize w := by simp [pairsSize]
      omega⟩
    rw [show renderFrameMembers true ([(k, w)].map
        (fun q => (⟨renderStr q.1, render q.2, true⟩ : ObjectMemberBuffer))) ++
        (Char.ofNat 0x7D :: rest) =
      '"' :: (renderStrContent k ++
        ('"' :: (':' :: (render w ++ (Char.ofNat 0x7D :: rest))))) from by
        simp [renderFrameMembers, ObjectMemberBuffer.string, renderStr, List.append_assoc]]
    have hjw : jsize w ≤ f' := by
      have : pairsSize [(k, w)] = 1 + jsize w := by simp [pairsSize]
      omega
    have hpv : parseValue f' (render w ++ (Char.ofNat 0x7D :: rest)) =
        some (canon w, Char.ofNat 0x7D :: rest) :=
      hP (k, w) (List.mem_cons_self _ _) f' _ hjw rfl
    simp only [parseMembers, parseStringContent_render, hpv]
    rfl
  | q :: ps', k, w, f, rest, hP, hf => by
    obtain ⟨f', rfl⟩ : ∃ f', f = f' + 1 := ⟨f - 1, by
      have : pairsSize ((k, w) :: q :: ps') =
          (1 + jsize w) + pairsSize (q :: ps') := by simp [pairsSize]
      omega⟩
    have hps : pairsSize ((k, w) :: q :: ps') =
        (1 + jsize w) + pairsSize (q :: ps') := by simp [pairsSize]
    rw [show renderFrameMembers true (((k, w) :: q :: ps').map
        (fun p => (⟨renderStr p.1, render p.2, true⟩ : ObjectMemberBuffer))) ++
        (Char.ofNat 0x7D :: rest) =
      '"' :: (renderStrContent k ++
        ('"' :: (':' :: (render w ++
          (',' :: (renderFrameMembers true ((q :: ps').map
            (fun p => (⟨renderStr p.1, render p.2, true⟩ : ObjectMemberBuffer))) ++
            (Char.ofNat 0x7D :: rest))))))) from by
        rw [List.map_cons, renderFrameMembers, List.map_cons, rfm_false_cons]
        simp [ObjectMemberBuffer.string, renderStr, List.append_assoc]]
    have hjw : jsize w ≤ f' := by omega
    have hpv : parseValue f' (render w ++
        (',' :: (renderFrameMembers true ((q :: ps').map
          (fun p => (⟨renderStr p.1, render p.2, true⟩ : ObjectMemberBuffer))) ++
          (Char.ofNat 0x7D :: rest)))) =
        some (canon w, ',' :: (renderFrameMembers true ((q :: ps').map
          (fun p => (⟨renderStr p.1, render p.2, true⟩ : ObjectMemberBuffer))) ++
          (Char.ofNat 0x7D :: rest))) :=
      hP (k, w) (List.mem_cons_self _ _) f' _ hjw rfl
    obtain ⟨k2, w2⟩ := q
    have hrec := parseMembers_render ps' k2 w2 f' rest
      (fun p hp => hP p (List.mem_cons_of_mem _ hp)) (by omega)
    simp only [parseMembers, parseStringContent_render, hpv, hrec]
    rfl

theorem rfm_true_cons_append (m : ObjectMemberBuffer) (l : List ObjectMemberBuffer)
    (t : List Char) :
    renderFrameMembers true (m :: l) ++ t =
      m.key ++ (':' :: (m.value ++ (renderFrameMembers false l ++ t))) := by
  rw [renderFrameMembers, member_string_true]
  simp [List.append_assoc]


theorem parse_render_aux : ∀ (N : Nat) (v : JsonValue), jsize v ≤ N →
    ∀ (fuel : Nat) (rest : List Char), jsize v ≤ fuel → notDigitStart rest = true →
    parseValue fuel (render v ++ rest) = some (canon v, rest) := by
  intro N
  induction N with
  | zero =>
    intro v hv
    have := jsize_pos v
    omega
  | succ N ih =>
    intro v hv fuel rest hf hrest
    obtain ⟨f, rfl⟩ : ∃ f, fuel = f + 1 := ⟨fuel - 1, by have := jsize_pos v; omega⟩
    cases v with
    | null => exact parseValue_null f rest
    | bool b =>
      cases b with
      | false => exact parseValue_false f rest
      | true => exact parseValue_true f rest
    | int n => exact parseValue_int n f rest hrest
    | str s => exact parseValue_str s f rest
    | arr vs =>
      cases vs with
      | nil =>
        rw [show render (JsonValue.arr JsonArr.nil) ++ rest = '[' :: ']' :: rest from rfl]
        rfl
      | cons w vs' =>
        have hszeq : jsize (JsonValue.arr (JsonArr.cons w vs')) =
            1 + (1 + jsize w + jsizeArr vs') := rfl
        obtain ⟨c, cs, hc, hcne⟩ := render_head_ne w
        rw [show render (JsonValue.arr (JsonArr.cons w vs')) ++ rest =
          '[' :: (render w ++ (renderArr false vs' ++ (']' :: rest))) from by
            show ('[' :: (renderArr true (JsonArr.cons w vs') ++ [']'])) ++ rest = _
            rw [show renderArr true (JsonArr.cons w vs') =
              render w ++ renderArr false vs' from by simp [renderArr]]
            simp [List.append_assoc]]
        rw [hc, List.cons_append, parseValue_lbracket f c _ hcne, ← List.cons_append, ← hc]
        have hrec := parseElems_render vs' w f rest
          (fun u hu f2 r2 h2 hr2 => ih u (by
            have h1 := jsize_le_of_mem_arr hu
            have h2 : jsizeArr (JsonArr.cons w vs') = 1 + jsize w + jsizeArr vs' := rfl
            omega) f2 r2 h2 hr2) (by omega)
        rw [hrec]
        rfl
    | obj ms =>
      have hszeq : jsize (JsonValue.obj ms) = 1 + jsizeMembers ms := rfl
      have hmap : isort memberLe (renderMembers ms) =
          (isort pairLe ms.toList).map
            (fun p => (⟨renderStr p.1, render p.2, true⟩ : ObjectMemberBuffer)) := by
        rw [renderMembers_eq_map, isort_map pairLe memberLe _ memberLe_build]
      cases hsp : isort pairLe ms.toList with
      | nil =>
        have hnil : ms = JsonMembers.nil := by
          have hperm := isort_perm pairLe ms.toList
          rw [hsp] at hperm
          exact toList_eq_nil hperm.nil_eq.symm
        subst hnil
        rw [show render (JsonValue.obj JsonMembers.nil) ++ rest =
          Char.ofNat 0x7B :: Char.ofNat 0x7D :: rest from rfl]
        rfl
      | cons p ps =>
        obtain ⟨k, w⟩ := p
        have hpsz : pairsSize ((k, w) :: ps) = jsizeMembers ms := by
          have hperm := isort_perm pairLe ms.toList
          rw [hsp] at hperm
          rw [jsizeMembers_eq_pairsSize]
          exact pairsSize_perm hperm
        rw [show render (JsonValue.obj ms) ++ rest =
          Char.ofNat 0x7B :: (renderFrameMembers true (((k, w) :: ps).map
            (fun q => (⟨renderStr q.1, render q.2, true⟩ : ObjectMemberBuffer))) ++
            (Char.ofNat 0x7D :: rest)) from by
            show (ObjectStackFrame.string ⟨renderMembers ms⟩) ++ rest = _
            rw [ObjectStackFrame.string]
            show (Char.ofNat 0x7B ::
              renderFrameMembers true (isort memberLe (renderMembers ms)) ++
              [Char.ofNat 0x7D]) ++ rest = _
            rw [hmap, hsp]
            simp [List.append_assoc]]
        have hsplit : renderFrameMembers true (((k, w) :: ps).map
            (fun q => (⟨renderStr q.1, render q.2, true⟩ : ObjectMemberBuffer))) ++
            (Char.ofNat 0x7D :: rest) =
            '"' :: ((renderStrContent k ++ ['"']) ++ (':' :: (render w ++
              (renderFrameMembers false (ps.map
                (fun q => (⟨renderStr q.1, render q.2, true⟩ : ObjectMemberBuffer))) ++
                (Char.ofNat 0x7D :: rest))))) := by
          rw [List.map_cons, rfm_true_cons_append]
          simp [renderStr, List.append_assoc]
        rw [hsplit, parseValue_lbrace f '"' _ (by decide), ← hsplit]
        have hrec := parseMembers_render ps k w f rest
          (fun q hq f2 r2 h2 hr2 => ih q.2 (by
            have hmem : q ∈ ms.toList := by
              have hiff := (isort_perm pairLe ms.toList).mem_iff (a := q)
              rw [hsp] at hiff
              exact hiff.mp hq
            have h1 := jsize_le_of_mem_members hmem
            omega) f2 r2 h2 hr2) (by omega)
        rw [hrec]
        have hcanon : canon (JsonValue.obj ms) =
            JsonValue.obj (JsonMembers.ofList (((k, w) :: ps).map
              (fun q => (q.1, canon q.2)))) := by
          rw [show canon (JsonValue.obj ms) =
            JsonValue.obj (sortMembers (canonMembers ms)) from rfl]
          rw [sortMembers, canonMembers_toList,
            isort_map pairLe pairLe (fun p => (p.1, canon p.2)) (fun a b => rfl), hsp]
        rw [hcanon]

theorem parse_render (v : JsonValue) (fuel : Nat) (rest : List Char)
    (hf : jsize v ≤ fuel) (hrest : notDigitStart rest = true) :
    parseValue fuel (render v ++ rest) = some (canon v, rest) :=
  parse_render_aux (jsize v) v (Nat.le_refl _) fuel rest hf hrest

/-!
The number regex diverges from the spec grammar on non-ASCII decimal
digits.
-/

/-- The validation regex of write_number_str, with the regex crate's
default Unicode `\d`, accepts the single ARABIC-INDIC DIGIT FIVE
(U+0665) and emits its UTF-8 bytes verbatim, although the spec's
number grammar (§4.3, `numberGrammarSpec`) rejects every text that is
not ASCII digits with an optional leading minus. -/
theorem write_number_str_accepts_arabic_indic_five :
    write_number_str FmtState.init [Char.ofNat 0x665] =
      Except.ok ⟨⟨[]⟩, strBytes [Char.ofNat 0x665]⟩ ∧
    ¬ numberGrammarSpec [Char.ofNat 0x665] := by
  constructor
  · decide
  · intro h
    simp only [numberGrammarSpec, singleDigitSpec, negDigitSpec, digitRun2] at h
    rcases h with ⟨c, hc, hd⟩ | ⟨c, hc, _⟩ | ⟨ds, hds, h2, _, _⟩
    · obtain ⟨h1, -⟩ := List.cons.inj hc
      rw [← h1] at hd
      exact absurd hd (by decide)
    · exact absurd (congrArg List.length hc) (by simp)
    · rcases hds with h | h
      · rw [← h] at h2
        exact absurd h2 (by decide)
      · obtain ⟨h1, -⟩ := List.cons.inj h
        exact absurd h1 (by decide)


/-!
The claims.
-/

/-- C1: for every object (one whose members' accumulated key texts are
pairwise distinct as byte sequences), permuting the order in which its
member buffers were created does not change the bytes the frame
assembles; the assembled member order is ascending in the byte order of
the accumulated (quoted) keys and is a permutation of the delivered
members; and closing an object only appends to the parent's current
member buffer — every sibling member, every other frame, and the writer
output are untouched, so sorting is local to one nesting level.
Determinism across runs is inherent: assembly is a pure function. -/
theorem object_output_independent_of_member_order :
    (∀ (ms ms' : List ObjectMemberBuffer), ms.Perm ms' →
      (ms.map (fun m => strBytes m.key)).Nodup →
      ObjectStackFrame.string ⟨ms⟩ = ObjectStackFrame.string ⟨ms'⟩) ∧
    (∀ ms : List ObjectMemberBuffer,
      (isort memberLe ms).Pairwise
        (fun a b => bytesLe (strBytes a.key) (strBytes b.key) = true) ∧
      (isort memberLe ms).Perm ms) ∧
    (∀ (f p : ObjectStackFrame) (rest : List ObjectStackFrame) (out : List Nat)
      (pms : List ObjectMemberBuffer) (m : ObjectMemberBuffer),
      p.members = pms ++ [m] →
      pop_object ⟨⟨f :: p :: rest⟩, out⟩ =
        Except.ok ⟨⟨⟨pms ++ [m.push_str f.string]⟩ :: rest⟩, out⟩) := by
  refine ⟨fun ms ms' hperm hnd => frame_string_perm hperm hnd,
    fun ms => ⟨isort_pairwise memberLe_total memberLe_trans ms, isort_perm memberLe ms⟩,
    fun f p rest out pms m hp => ?_⟩
  cases p with
  | mk pmembers =>
    cases hp
    exact dispatch_member pms m rest out f.string

theorem object_output_independent_of_member_order_witness :
    ObjectStackFrame.string
        ⟨[⟨"\"b\"".data, "2".data, true⟩, ⟨"\"a\"".data, "1".data, true⟩]⟩ =
      ObjectStackFrame.string
        ⟨[⟨"\"a\"".data, "1".data, true⟩, ⟨"\"b\"".data, "2".data, true⟩]⟩ ∧
    pop_object ⟨⟨(⟨[]⟩ : ObjectStackFrame) ::
        (⟨[⟨"\"k\"".data, [], true⟩]⟩ : ObjectStackFrame) :: []⟩, []⟩ =
      Except.ok ⟨⟨(⟨[] ++ [ObjectMemberBuffer.push_str ⟨"\"k\"".data, [], true⟩
        (ObjectStackFrame.string ⟨[]⟩)]⟩ : ObjectStackFrame) :: []⟩, []⟩ :=
  ⟨object_output_independent_of_member_order.1 _ _ (List.Perm.swap _ _ _) (by decide),
   object_output_independent_of_member_order.2.2 ⟨[]⟩ _ [] [] []
     ⟨"\"k\"".data, [], true⟩ rfl⟩

/-- C2: closing an object on a non-empty stack pops the frame and
routes, through the popped stack, exactly the text consisting of an
opening brace, the members rendered as key, colon, value and joined by
commas in sorted order, and a closing brace; the sort is by byte-wise
comparison of each member's fully accumulated key text (the literal
emitted key bytes, quotes and escapes included), and the sorted list is
a permutation of the accumulated members. -/
theorem end_object_renders_sorted_members (f : ObjectStackFrame)
    (rest : List ObjectStackFrame) (out : List Nat) :
    end_object ⟨⟨f :: rest⟩, out⟩ =
      dispatch ⟨⟨rest⟩, out⟩
        (Char.ofNat 0x7B ::
          joinComma ((isort memberLe f.members).map (fun m => m.key ++ ':' :: m.value)) ++
          [Char.ofNat 0x7D]) ∧
    (isort memberLe f.members).Pairwise
      (fun a b => bytesLe (strBytes a.key) (strBytes b.key) = true) ∧
    (isort memberLe f.members).Perm f.members := by
  refine ⟨?_, isort_pairwise memberLe_total memberLe_trans f.members,
    isort_perm memberLe f.members⟩
  show dispatch ⟨⟨rest⟩, out⟩ (ObjectStackFrame.string f) = _
  rw [frame_string_eq]

/-- C3: every byte-producing event is routed purely by the frame-stack
state: with no open frame the text's bytes go straight to the writer;
with an open frame that has a member the text is appended to the most
recently created member — to its key while the key is unfinished, to
its value once finished — and with an open frame that has no member the
event fails with a protocol violation; and each byte-producing
formatter method (scalar writes, string delimiters and fragments, named
escapes, array delimiters and separators) is exactly such a routed
write of its fixed text. -/
theorem byte_event_routing :
    (∀ (out : List Nat) (s : List Char),
      dispatch ⟨⟨[]⟩, out⟩ s = Except.ok ⟨⟨[]⟩, out ++ strBytes s⟩) ∧
    (∀ (ms : List ObjectMemberBuffer) (m : ObjectMemberBuffer)
      (rest : List ObjectStackFrame) (out : List Nat) (s : List Char),
      dispatch ⟨⟨⟨ms ++ [m]⟩ :: rest⟩, out⟩ s =
        Except.ok ⟨⟨⟨ms ++ [m.push_str s]⟩ :: rest⟩, out⟩) ∧
    (∀ (m : ObjectMemberBuffer) (s : List Char),
      (m.push_str s).key = (if m.key_finished then m.key else m.key ++ s) ∧
      (m.push_str s).value = (if m.key_finished then m.value ++ s else m.value)) ∧
    (∀ (rest : List ObjectStackFrame) (out : List Nat) (s : List Char),
      dispatch ⟨⟨⟨[]⟩ :: rest⟩, out⟩ s = Except.error FmtError.protocolViolation) ∧
    (∀ st : FmtState,
      write_null st = dispatch st "null".data ∧
      (∀ b, write_bool st b = dispatch st (if b then "true".data else "false".data)) ∧
      (∀ n, write_i64 st n = dispatch st (intChars n)) ∧
      begin_string st = dispatch st ['"'] ∧
      end_string st = dispatch st ['"'] ∧
      (∀ s, write_string_fragment st s = dispatch st s) ∧
      (∀ s, write_raw_fragment st s = dispatch st s) ∧
      begin_array st = dispatch st ['['] ∧
      end_array st = dispatch st [']'] ∧
      begin_array_value st false = dispatch st [',']) ∧
    (∀ (st : FmtState) (e : CharEscape), (∀ b, e ≠ CharEscape.AsciiControl b) →
      write_char_escape st e = dispatch st (escapeChars e)) := by
  refine ⟨dispatch_empty, dispatch_member, ?_, dispatch_nomember,
    fun st => ⟨rfl, fun b => rfl, fun n => rfl, rfl, rfl, fun s => rfl, fun s => rfl,
      rfl, rfl, rfl⟩, ?_⟩
  · intro m s
    cases m with
    | mk k v kf => cases kf <;> simp [ObjectMemberBuffer.push_str]
  · intro st e he
    cases e with
    | AsciiControl b => exact absurd rfl (he b)
    | Quote => rfl
    | ReverseSolidus => rfl
    | Solidus => rfl
    | Backspace => rfl
    | FormFeed => rfl
    | LineFeed => rfl
    | CarriageReturn => rfl
    | Tab => rfl

theorem byte_event_routing_witness :
    write_char_escape FmtState.init CharEscape.Solidus =
      dispatch FmtState.init (escapeChars CharEscape.Solidus) :=
  byte_event_routing.2.2.2.2.2 FmtState.init CharEscape.Solidus
    (fun _ h => CharEscape.noConfusion h)

/-- C4: end_object with an empty stack fails with a protocol violation;
otherwise the topmost frame is popped and its assembled text is routed
by the stack after the pop — straight to the writer when the stack
became empty, appended to the parent's current member when a parent
frame with a member remains, and a protocol violation when the parent
frame has no member. -/
theorem pop_object_routing_cases :
    (∀ out : List Nat, pop_object ⟨⟨[]⟩, out⟩ = Except.error FmtError.protocolViolation) ∧
    (∀ (f : ObjectStackFrame) (out : List Nat),
      pop_object ⟨⟨[f]⟩, out⟩ = Except.ok ⟨⟨[]⟩, out ++ strBytes f.string⟩) ∧
    (∀ (f : ObjectStackFrame) (rest : List ObjectStackFrame) (out : List Nat),
      pop_object ⟨⟨f :: (⟨[]⟩ : ObjectStackFrame) :: rest⟩, out⟩ =
        Except.error FmtError.protocolViolation) ∧
    (∀ (f p : ObjectStackFrame) (rest : List ObjectStackFrame) (out : List Nat)
      (pms : List ObjectMemberBuffer) (m : ObjectMemberBuffer),
      p.members = pms ++ [m] →
      pop_object ⟨⟨f :: p :: rest⟩, out⟩ =
        Except.ok ⟨⟨⟨pms ++ [m.push_str f.string]⟩ :: rest⟩, out⟩) := by
  refine ⟨fun out => rfl, fun f out => rfl, fun f rest out => rfl,
    fun f p rest out pms m hp => ?_⟩
  cases p with
  | mk pmembers =>
    cases hp
    exact dispatch_member pms m rest out f.string

theorem pop_object_routing_cases_witness :
    pop_object ⟨⟨(⟨[]⟩ : ObjectStackFrame) ::
        (⟨[⟨"\"x\"".data, "7".data, true⟩]⟩ : ObjectStackFrame) :: []⟩, [0x41]⟩ =
      Except.ok ⟨⟨(⟨[] ++ [ObjectMemberBuffer.push_str ⟨"\"x\"".data, "7".data, true⟩
        (ObjectStackFrame.string ⟨[]⟩)]⟩ : ObjectStackFrame) :: []⟩, [0x41]⟩ :=
  pop_object_routing_cases.2.2.2 ⟨[]⟩ _ [] [0x41] []
    ⟨"\"x\"".data, "7".data, true⟩ rfl

/-- C5: on the direct path (no open frame) every escape event appends
exactly its table bytes: backslash-quote for a quote, double backslash
for a backslash, a bare solidus, the raw control bytes 0x08, 0x0C,
0x0A, 0x0D, 0x09 for the named control escapes, and the raw byte itself
for any other ASCII control byte; consequently a backslash byte occurs in
the contribution only for the quote and reverse-solidus escapes. -/
theorem write_char_escape_minimal_table :
    (∀ (out : List Nat) (esc : CharEscape),
      write_char_escape ⟨⟨[]⟩, out⟩ esc =
        Except.ok ⟨⟨[]⟩, out ++ escBytesDirect esc⟩) ∧
    (escBytesDirect CharEscape.Quote = [0x5C, 0x22] ∧
      escBytesDirect CharEscape.ReverseSolidus = [0x5C, 0x5C] ∧
      escBytesDirect CharEscape.Solidus = [0x2F] ∧
      escBytesDirect CharEscape.Backspace = [0x08] ∧
      escBytesDirect CharEscape.FormFeed = [0x0C] ∧
      escBytesDirect CharEscape.LineFeed = [0x0A] ∧
      escBytesDirect CharEscape.CarriageReturn = [0x0D] ∧
      escBytesDirect CharEscape.Tab = [0x09] ∧
      ∀ b : Nat, escBytesDirect (CharEscape.AsciiControl b) = [b]) ∧
    (∀ esc : CharEscape, esc ≠ CharEscape.Quote → esc ≠ CharEscape.ReverseSolidus →
      (∀ b, esc ≠ CharEscape.AsciiControl b) → (0x5C : Nat) ∉ escBytesDirect esc) ∧
    (∀ b : Nat, b < 0x20 → (0x5C : Nat) ∉ escBytesDirect (CharEscape.AsciiControl b)) := by
  refine ⟨?_, ⟨by decide, by decide, by decide, by decide, by decide, by decide,
    by decide, by decide, fun b => rfl⟩, ?_, ?_⟩
  · intro out esc
    cases esc <;> rfl
  · intro esc h1 h2 h3
    cases esc with
    | Quote => exact absurd rfl h1
    | ReverseSolidus => exact absurd rfl h2
    | AsciiControl b => exact absurd rfl (h3 b)
    | Solidus => decide
    | Backspace => decide
    | FormFeed => decide
    | LineFeed => decide
    | CarriageReturn => decide
    | Tab => decide
  · intro b hb hmem
    rw [show escBytesDirect (CharEscape.AsciiControl b) = [b] from rfl] at hmem
    rcases List.mem_cons.mp hmem with h | h
    · omega
    · simp at h

theorem write_char_escape_minimal_table_witness :
    (0x5C : Nat) ∉ escBytesDirect CharEscape.Solidus ∧
    (0x5C : Nat) ∉ escBytesDirect (CharEscape.AsciiControl 1) :=
  ⟨write_char_escape_minimal_table.2.2.1 CharEscape.Solidus (by decide) (by decide)
      (fun b h => CharEscape.noConfusion h),
    write_char_escape_minimal_table.2.2.2 1 (by decide)⟩

/-- C7: write_f32 and write_f64 fail unconditionally with the
unsupported-float error for every state and every value; since the
result is an error, no bytes reach the writer and no frame or member
buffer changes. -/
theorem write_float_unconditional_error (st : FmtState) (v32 v64 : Nat) :
    write_f32 st v32 = Except.error FmtError.unsupportedFloat ∧
    write_f64 st v64 = Except.error FmtError.unsupportedFloat :=
  ⟨rfl, rfl⟩

/-- C8: the event sequence of the nested value whose members arrive in
the order h (an object delivered i, k, j), g (null), f (a string),
e (an array of 2, 4, 19, -128) produces exactly the canonical bytes —
nested objects sorted per level, the array preserving event order with
comma separators only between elements. -/
theorem nested_example_canonical_bytes :
    run FmtState.init
      [Event.beginObject,
        Event.beginObjectKey true, Event.beginString, Event.stringFragment "h".data,
        Event.endString, Event.endObjectKey, Event.beginObjectValue,
        Event.beginObject,
        Event.beginObjectKey true, Event.beginString, Event.stringFragment "i".data,
        Event.endString, Event.endObjectKey, Event.beginObjectValue,
        Event.writeBool true, Event.endObjectValue,
        Event.beginObjectKey false, Event.beginString, Event.stringFragment "k".data,
        Event.endString, Event.endObjectKey, Event.beginObjectValue,
        Event.writeBool false, Event.endObjectValue,
        Event.beginObjectKey false, Event.beginString, Event.stringFragment "j".data,
        Event.endString, Event.endObjectKey, Event.beginObjectValue,
        Event.writeBool true, Event.endObjectValue,
        Event.endObject,
        Event.endObjectValue,
        Event.beginObjectKey false, Event.beginString, Event.stringFragment "g".data,
        Event.endString, Event.endObjectKey, Event.beginObjectValue,
        Event.writeNull, Event.endObjectValue,
        Event.beginObjectKey false, Event.beginString, Event.stringFragment "f".data,
        Event.endString, Event.endObjectKey, Event.beginObjectValue,
        Event.beginString, Event.stringFragment "Here is another".data, Event.endString,
        Event.endObjectValue,
        Event.beginObjectKey false, Event.beginString, Event.stringFragment "e".data,
        Event.endString, Event.endObjectKey, Event.beginObjectValue,
        Event.beginArray,
        Event.beginArrayValue true, Event.writeI64 2, Event.endArrayValue,
        Event.beginArrayValue false, Event.writeI64 4, Event.endArrayValue,
        Event.beginArrayValue false, Event.writeI64 19, Event.endArrayValue,
        Event.beginArrayValue false, Event.writeI64 (-128), Event.endArrayValue,
        Event.endArray,
        Event.endObjectValue,
        Event.endObject] =
      Except.ok ⟨⟨[]⟩, strBytes
        "\x7b\"e\":[2,4,19,-128],\"f\":\"Here is another\",\"g\":null,\"h\":\x7b\"i\":true,\"j\":true,\"k\":false\x7d\x7d".data⟩ := by
  decide

/-- C9: for every value without floating-point components (the value
type has null, booleans, integers, strings, arrays and objects),
feeding the value's event stream through the formatter succeeds and
writes exactly the canonical bytes of its rendering, a standard JSON
parser parses that rendering back to the value's canonical form, and
the canonical form is logically equal to the original value (equal up
to reordering of object members, recursively). -/
theorem canonical_encode_decode_round_trip (v : JsonValue) :
    run FmtState.init (eventsOf v) = Except.ok ⟨⟨[]⟩, strBytes (render v)⟩ ∧
    parseValue (jsize v) (render v) = some (canon v, []) ∧
    PermEq (canon v) v := by
  refine ⟨?_, ?_, canon_permEq v⟩
  · rw [run_eventsOf v FmtState.init]
    rfl
  · have h := parse_render v (jsize v) [] (Nat.le_refl _) rfl
    rw [List.append_nil] at h
    exact h

/-- C10: a raw-control-byte escape write contributes the same byte
sequence on the buffered path (one character pushed into the current
member, later emitted as its UTF-8 bytes) and on the direct path (one
raw byte written) exactly when the byte is below 0x80 — which covers
every ASCII control byte; under that bound the event equals a plain
dispatch of the one-character text, and the one-character UTF-8
encoding equals the raw byte if and only if the byte is below 0x80. -/
theorem ascii_control_buffered_direct_agree :
    (∀ (st : FmtState) (b : Nat), b < 0x80 →
      write_char_escape st (CharEscape.AsciiControl b) = dispatch st [Char.ofNat b]) ∧
    (∀ (out : List Nat) (b : Nat),
      write_char_escape ⟨⟨[]⟩, out⟩ (CharEscape.AsciiControl b) =
        Except.ok ⟨⟨[]⟩, out ++ [b]⟩) ∧
    (∀ (ms : List ObjectMemberBuffer) (m : ObjectMemberBuffer)
      (rest : List ObjectStackFrame) (out : List Nat) (b : Nat),
      write_char_escape ⟨⟨⟨ms ++ [m]⟩ :: rest⟩, out⟩ (CharEscape.AsciiControl b) =
        Except.ok ⟨⟨⟨ms ++ [m.push (Char.ofNat b)]⟩ :: rest⟩, out⟩) ∧
    (∀ b : Nat, b < 256 → (utf8Bytes (Char.ofNat b) = [b] ↔ b < 0x80)) := by
  refine ⟨fun st b hb => write_char_escape_control_eq_dispatch st hb,
    fun out b => rfl, ?_, fun b hb => utf8Bytes_singleton_iff hb⟩
  intro ms m rest out b
  simp [write_char_escape, ObjectStackFrame.withCurrent, modifyLast_append_last]

theorem ascii_control_buffered_direct_agree_witness :
    write_char_escape FmtState.init (CharEscape.AsciiControl 1) =
      dispatch FmtState.init [Char.ofNat 1] ∧
    (utf8Bytes (Char.ofNat 200) = [200] ↔ 200 < 0x80) :=
  ⟨ascii_control_buffered_direct_agree.1 FmtState.init 1 (by decide),
    ascii_control_buffered_direct_agree.2.2.2 200 (by decide)⟩
